import Mathlib

/-!
Verification development for the mutk relationship-graph compiler
(`src/lib/relationship_graph.cpp`).  The C++ pipeline is shallowly embedded:
the boost `adjacency_list` (vecS/vecS/bidirectionalS) becomes a vertex-property
list plus an edge list kept in insertion order, property maps become field
accessors, and every routine of the source file is translated statement by
statement.  Exceptions (`std::invalid_argument`) are modelled with `Except`.
Branch lengths (C++ `float`/`double`) are modelled with `ℚ`; every claim
settled here is about which rates multiply which branches and which edges are
kept, not about rounding.
-/

namespace Mutk

/-- The `mutk::Pedigree::Sex` as used by `relationship_graph.cpp`. -/
inductive Sex where
  | Autosomal
  | Male
  | Female
  | Unknown
deriving DecidableEq, Repr

/-- The `mutk::detail::VertexType`. -/
inductive VertexType where
  | Founder
  | Germline
  | Somatic
  | Sample
deriving DecidableEq, Repr

/-- The `mutk::detail::EdgeType`: a bitset over GERM_EDGE, SOMA_EDGE, LIB_EDGE. -/
structure EdgeKind where
  germ : Bool
  soma : Bool
  lib : Bool
deriving DecidableEq, Repr

/-- Bitwise union of edge-type bitsets (`otype | edge_types[e]` in `simplify`). -/
def EdgeKind.union (a b : EdgeKind) : EdgeKind :=
  ⟨a.germ || b.germ, a.soma || b.soma, a.lib || b.lib⟩

def germKind : EdgeKind := ⟨true, false, false⟩
def somaKind : EdgeKind := ⟨false, true, false⟩

/-- Vertex properties: label, sex, ploidy, type (boost property maps). -/
structure VertexProp where
  label : String
  sex : Sex
  ploidy : Int
  vtype : VertexType
deriving DecidableEq, Repr

/-- One directed edge with its properties (length and type). -/
structure Edge where
  src : Nat
  tgt : Nat
  len : ℚ
  ety : EdgeKind
deriving DecidableEq, Repr

/-- The pedigree graph: vertices are indices into `verts`; `edges` is kept in
insertion order, matching the vecS storage of boost. -/
structure Graph where
  verts : List VertexProp
  edges : List Edge
deriving DecidableEq, Repr

def Graph.numVertices (g : Graph) : Nat := g.verts.length

/-- Default property used for (never-occurring in the modelled runs)
out-of-range property-map reads by total accessors. -/
def defaultProp : VertexProp := ⟨"", Sex.Unknown, 0, VertexType.Germline⟩

def vpropAt (g : Graph) (v : Nat) : VertexProp := (g.verts.get? v).getD defaultProp

def sexAt (g : Graph) (v : Nat) : Sex := (vpropAt g v).sex
def ploidyAt (g : Graph) (v : Nat) : Int := (vpropAt g v).ploidy
def vtypeAt (g : Graph) (v : Nat) : VertexType := (vpropAt g v).vtype
def labelAt (g : Graph) (v : Nat) : String := (vpropAt g v).label

def inEdgesG (g : Graph) (v : Nat) : List Edge := g.edges.filter (fun e => e.tgt = v)
def outEdgesG (g : Graph) (v : Nat) : List Edge := g.edges.filter (fun e => e.src = v)

def inDegreeG (g : Graph) (v : Nat) : Nat := (inEdgesG g v).length
def outDegreeG (g : Graph) (v : Nat) : Nat := (outEdgesG g v).length
def degreeG (g : Graph) (v : Nat) : Nat := inDegreeG g v + outDegreeG g v

/-- The `add_vertex` for vecS: the new vertex gets the next index. -/
def addVertexG (g : Graph) (p : VertexProp) : Graph := ⟨g.verts ++ [p], g.edges⟩

/-- The `add_edge`: appended to the container. -/
def addEdgeG (g : Graph) (e : Edge) : Graph := ⟨g.verts, g.edges ++ [e]⟩

/-- The `clear_vertex`: remove all edges incident to `v` (the vertex itself stays). -/
def clearVertexG (g : Graph) (v : Nat) : Graph :=
  ⟨g.verts, g.edges.filter (fun e => ¬ (e.src = v ∨ e.tgt = v))⟩

/-- The `clear_in_edges`. -/
def clearInEdgesG (g : Graph) (v : Nat) : Graph :=
  ⟨g.verts, g.edges.filter (fun e => ¬ e.tgt = v)⟩

/-- The `remove_edge_if`. -/
def removeEdgeIfG (g : Graph) (p : Edge → Bool) : Graph :=
  ⟨g.verts, g.edges.filter (fun e => ¬ p e)⟩

def setPloidyG (g : Graph) (v : Nat) (k : Int) : Graph :=
  ⟨g.verts.set v { vpropAt g v with ploidy := k }, g.edges⟩

def setSexG (g : Graph) (v : Nat) (s : Sex) : Graph :=
  ⟨g.verts.set v { vpropAt g v with sex := s }, g.edges⟩

def setVtypeG (g : Graph) (v : Nat) (t : VertexType) : Graph :=
  ⟨g.verts.set v { vpropAt g v with vtype := t }, g.edges⟩

/-! ## Pedigree input and the external Newick parser

`pedigree.cpp` and `newick.cpp` are outside the verified source; only their
interfaces are given by the specification, so they are modelled from it. -/

/-- Modelled from the spec: the output schema of the external Newick parser.
`parse_newick` appends somatic-tree vertices (type `Somatic`) and edges
(type `SOMA_EDGE`) with lengths from the Newick text, anchored at a germline
vertex.  The spec does not fix the sex or ploidy the parser stores on the
created somatic vertices, so each modelled node carries them explicitly. -/
inductive STree where
  | node : String → ℚ → Sex → Int → List STree → STree

/-- Modelled from the spec: one `Pedigree::Member` as exposed by the pedigree
adapter (`GetMember`).  A `samples` entry of `none` stands for a Newick string
the external parser rejects (`parse_newick` returning `false`). -/
structure Member where
  name : String
  sex : Sex
  dad : Option String
  mom : Option String
  dadLength : Option ℚ
  momLength : Option ℚ
  tags : List String
  samples : List (Option STree)

/-- Modelled from the spec: the `Pedigree` object, an ordered member list with
stable integer positions as identity. -/
structure Pedigree where
  members : List Member

def Pedigree.numberOfMembers (p : Pedigree) : Nat := p.members.length

/-- Modelled from the spec: `LookupMemberPosition(name) → int` returns the
member position, or a value `≥ NumberOfMembers()` to signal an unknown name. -/
def lookupMemberPosition (p : Pedigree) (nm : String) : Nat :=
  ((p.members.findIdx? (fun m => m.name = nm)).getD p.members.length)

def getMemberD (p : Pedigree) (i : Nat) : Member :=
  (p.members.get? i).getD ⟨"", Sex.Unknown, none, none, none, none, [], []⟩

/-- ASCII lowercase of one character (`boost::algorithm::iequals` compares
characters case-insensitively; the tags and tag aliases are all ASCII). -/
def lowerChar (c : Char) : Char :=
  if c.toNat ≥ 65 ∧ c.toNat ≤ 90 then Char.ofNat (c.toNat + 32) else c

/-- The `boost::algorithm::iequals` on ASCII tags. -/
def ieq (a b : String) : Bool := a.data.map lowerChar == b.data.map lowerChar

/-- The `has_tag` from `add_edges_to_pedigree_graph`. -/
def hasTag (m : Member) (tag : String) : Bool := m.tags.any (fun a => ieq a tag)

/-- The `get_ploidy` lambda of `construct_pedigree_graph`: the first tag
matching a ploidy-1 or ploidy-2 alias wins; otherwise a `clone` tag gives the
placeholder 0; otherwise the default is 2. -/
def tagPloidyScan : List String → Option Int
  | [] => none
  | a :: rest =>
    if ieq a "haploid" || ieq a "gamete" || ieq a "p=1" || ieq a "ploidy=1" then some 1
    else if ieq a "diploid" || ieq a "p=2" || ieq a "ploidy=2" then some 2
    else tagPloidyScan rest

def getPloidy (m : Member) : Int :=
  (tagPloidyScan m.tags).getD (if m.tags.any (fun a => ieq a "clone") then 0 else 2)

/-! ## Errors

The core throws `std::invalid_argument` everywhere; the spec classifies the
throw sites into error kinds, which the model keeps as constructors.
`UndefinedRead` marks a read of a vertex property map at an out-of-range
index — undefined behavior in the C++ (there is no such error in the source;
the constructor only names the point where the embedding stops modelling). -/
inductive MutkError where
  | PedigreeInvalid : String → MutkError
  | SomaticParse : String → MutkError
  | InvalidSex : String → MutkError
  | ModelUnsupported : String → MutkError
  | UndefinedRead : MutkError
deriving DecidableEq, Repr

/-- A property-map read that the C++ performs without a range check:
`get(boost::vertex_sex, graph, v)`.  In range it returns the stored sex; out
of range the C++ behavior is undefined and the model stops. -/
def readVertexSex (g : Graph) (v : Nat) : Except MutkError Sex :=
  match g.verts.get? v with
  | some p => .ok p.sex
  | none => .error .UndefinedRead

/-! ## `add_edges_to_pedigree_graph` -/

/-- The body of the member loop of `add_edges_to_pedigree_graph`, translated
branch by branch (clone / haploid / diploid on the current ploidy of the
child in the graph).  Statement order matters and is kept: in the haploid branch the
C++ reads the sex of the parent *before* checking that the parent position is in
range, and in the diploid branch both range checks precede the sex checks. -/
def addEdgesForMember (ped : Pedigree) (g : Graph) (v : Nat) : Except MutkError Graph :=
  let member := getMemberD ped v
  if hasTag member "founder" || (member.dad.isNone && member.mom.isNone) then .ok g
  else
    let ploidy := ploidyAt g v
    if ploidy = 0 then
      -- clone
      if member.dad.isSome && member.mom.isSome then
        .error (.PedigreeInvalid ("Unable to construct graph for pedigree; clone "
          ++ member.name ++ " has two parents instead of one."))
      else
        let pl := match member.dad with
          | some d => (lookupMemberPosition ped d, member.dadLength.getD 1)
          | none => (lookupMemberPosition ped (member.mom.getD ""), member.momLength.getD 1)
        if pl.1 ≥ ped.numberOfMembers then
          .error (.PedigreeInvalid ("Unable to construct graph for pedigree; the clone parent of "
            ++ member.name ++ " is unknown."))
        else
          let g1 := addEdgeG g ⟨pl.1, v, pl.2, germKind⟩
          let g2 := setPloidyG g1 v (ploidyAt g1 pl.1)
          .ok (setSexG g2 v (sexAt g2 pl.1))
    else if ploidy = 1 then
      -- haploid/gamete: the sex of the parent is read *before* the range check
      if member.dad.isSome && member.mom.isSome then
        .error (.PedigreeInvalid ("Unable to construct graph for pedigree; gamete "
          ++ member.name ++ " has two parents instead of one."))
      else
        match member.dad with
        | some d =>
          let parent := lookupMemberPosition ped d
          match readVertexSex g parent with
          | .error e => .error e
          | .ok sx =>
            if sx = Sex.Female then
              .error (.PedigreeInvalid ("Unable to construct graph for pedigree; the father of "
                ++ member.name ++ " is female."))
            else if parent ≥ ped.numberOfMembers then
              .error (.PedigreeInvalid ("Unable to construct graph for pedigree; the parent of "
                ++ member.name ++ " is unknown."))
            else .ok (addEdgeG g ⟨parent, v, member.dadLength.getD 1, germKind⟩)
        | none =>
          let parent := lookupMemberPosition ped (member.mom.getD "")
          match readVertexSex g parent with
          | .error e => .error e
          | .ok sx =>
            if sx = Sex.Male then
              .error (.PedigreeInvalid ("Unable to construct graph for pedigree; the mother of "
                ++ member.name ++ " is male."))
            else if parent ≥ ped.numberOfMembers then
              .error (.PedigreeInvalid ("Unable to construct graph for pedigree; the parent of "
                ++ member.name ++ " is unknown."))
            else .ok (addEdgeG g ⟨parent, v, member.momLength.getD 1, germKind⟩)
    else
      -- diploid (and any other ploidy)
      match member.dad with
      | none => .error (.PedigreeInvalid ("Unable to construct graph for pedigree; the father of "
          ++ member.name ++ " is unspecified."))
      | some dn =>
        match member.mom with
        | none => .error (.PedigreeInvalid ("Unable to construct graph for pedigree; the mother of "
            ++ member.name ++ " is unspecified."))
        | some mn =>
          let dad := lookupMemberPosition ped dn
          let mom := lookupMemberPosition ped mn
          if dad ≥ ped.numberOfMembers then
            .error (.PedigreeInvalid ("Unable to construct graph for pedigree; the father of "
              ++ member.name ++ " is unknown."))
          else if mom ≥ ped.numberOfMembers then
            .error (.PedigreeInvalid ("Unable to construct graph for pedigree; the mother of "
              ++ member.name ++ " is unknown."))
          else
            match readVertexSex g dad with
            | .error e => .error e
            | .ok dsx =>
              if dsx = Sex.Female then
                .error (.PedigreeInvalid ("Unable to construct graph for pedigree; the father of "
                  ++ member.name ++ " is female."))
              else
                match readVertexSex g mom with
                | .error e => .error e
                | .ok msx =>
                  if msx = Sex.Male then
                    .error (.PedigreeInvalid ("Unable to construct graph for pedigree; the mother of "
                      ++ member.name ++ " is male."))
                  else
                    .ok (addEdgeG (addEdgeG g ⟨dad, v, member.dadLength.getD 1, germKind⟩)
                      ⟨mom, v, member.momLength.getD 1, germKind⟩)

def addEdgesToPedigreeGraph (ped : Pedigree) (g : Graph) : Except MutkError Graph :=
  (List.range g.numVertices).foldlM (addEdgesForMember ped) g

/-! ## `construct_pedigree_graph` (somatic attachment modelled from the spec) -/

mutual
/-- Modelled from the spec: appending one parsed Newick node under `anchor` —
a fresh `Somatic` vertex and a `SOMA_EDGE` of the given length (vertices are
created parent before children). -/
def attachTree (g : Graph) (anchor : Nat) : STree → Graph
  | .node lb ln sx pl cs =>
    let w := g.numVertices
    let g1 := addVertexG g ⟨lb, sx, pl, VertexType.Somatic⟩
    let g2 := addEdgeG g1 ⟨anchor, w, ln, somaKind⟩
    attachForest g2 w cs

def attachForest (g : Graph) (anchor : Nat) : List STree → Graph
  | [] => g
  | t :: ts => attachForest (attachTree g anchor t) anchor ts
end

mutual
/-- Modelled from the spec: the root-to-leaf depth used when
`normalize_somatic_trees` asks the parser to rescale a tree. -/
def treeDepth : STree → ℚ
  | .node _ ln _ _ cs => ln + forestDepth cs

def forestDepth : List STree → ℚ
  | [] => 0
  | t :: ts => max (treeDepth t) (forestDepth ts)
end

mutual
def scaleTree (c : ℚ) : STree → STree
  | .node lb ln sx pl cs => .node lb (ln * c) sx pl (scaleForest c cs)

def scaleForest (c : ℚ) : List STree → List STree
  | [] => []
  | t :: ts => scaleTree c t :: scaleForest c ts
end

/-- Modelled from the spec: `normalize_somatic_trees` requests the parser to
rescale each tree to a total leaf depth of 1 before emission. -/
def normalizeTree (t : STree) : STree :=
  let d := treeDepth t
  if d = 0 then t else scaleTree (1 / d) t

/-- The somatic loop of `construct_pedigree_graph`: each sample string of a
member is handed to the parser anchored at the germline vertex of that member; a
rejected string raises the somatic parse error. -/
def attachSamplesForMember (i : Nat) (name : String) (norm : Bool) :
    Graph → List (Option STree) → Except MutkError Graph
  | g, [] => .ok g
  | _, none :: _ =>
      .error (.SomaticParse ("Unable to parse somatic data for individual " ++ name ++ "."))
  | g, some t :: rest =>
      attachSamplesForMember i name norm
        (attachTree g i (if norm then normalizeTree t else t)) rest

/-- The relabelling loop at the end of `construct_pedigree_graph`: every
`Somatic` vertex whose label is in the known-sample set becomes `Sample`. -/
def markKnownSamples (known : List String) (g : Graph) : Graph :=
  (List.range g.numVertices).foldl (fun g v =>
    if vtypeAt g v = VertexType.Somatic ∧ labelAt g v ∈ known then
      setVtypeG g v VertexType.Sample
    else g) g

/-- The `construct_pedigree_graph`: one `Germline` vertex per member (ploidy from
tags), pedigree edges, somatic trees, then known-sample relabelling. -/
def constructPedigreeGraph (ped : Pedigree) (known : List String) (norm : Bool) :
    Except MutkError Graph := do
  let g0 : Graph := ⟨ped.members.map (fun m => ⟨m.name, m.sex, getPloidy m, VertexType.Germline⟩), []⟩
  let g1 ← addEdgesToPedigreeGraph ped g0
  let g2 ← (List.range ped.numberOfMembers).foldlM
      (fun g i => attachSamplesForMember i (getMemberD ped i).name norm g (getMemberD ped i).samples)
      g1
  return markKnownSamples known g2

/-! ## `update_edge_lengths` -/

/-- Multiply each germline edge length by `mu_germ` and every other edge
length by `mu_soma`. -/
def updateEdgeLengths (g : Graph) (muGerm muSoma : ℚ) : Graph :=
  ⟨g.verts, g.edges.map (fun e =>
    { e with len := e.len * (if e.ety.germ then muGerm else muSoma) })⟩

/-! ## Topological order (boost `topological_sort` = DFS finish order) -/

/-- Out-neighbors of `u` in adjacency (insertion) order. -/
def outAdj (g : Graph) (u : Nat) : List Nat := (outEdgesG g u).map (fun e => e.tgt)

/-- One DFS visit; the state is (visited list, chronological finish list).
The fuel bounds the nesting depth of first visits and `numVertices` is always
enough on well-formed graphs. -/
def dfsVisit (g : Graph) : Nat → Nat → (List Nat × List Nat) → (List Nat × List Nat)
  | fuel, u, s =>
    if u ∈ s.1 then s
    else
      match fuel with
      | 0 => s
      | f + 1 =>
        let s2 := (outAdj g u).foldl (fun st w => dfsVisit g f w st) (u :: s.1, s.2)
        (s2.1, s2.2 ++ [u])

/-- boost `topological_sort` output: vertices in chronological DFS finish
order, which is reverse topological order (the `rev_topo_order` vector of
`simplify`, the `topo_order` vector of `finalize`). -/
def revTopoOrderG (g : Graph) : List Nat :=
  ((List.range g.numVertices).foldl (fun s u => dfsVisit g g.numVertices u s) ([], [])).2

/-- Ancestors-first topological order (`boost::adaptors::reverse` of the
finish order in `simplify`; `rbegin()..rend()` in `finalize`). -/
def topoOrderG (g : Graph) : List Nat := (revTopoOrderG g).reverse

/-! ## `simplify` -/

/-- Pass A: in finish order (tips first), clear every non-`Sample` leaf. -/
def simpPassA (rto : List Nat) (g : Graph) : Graph :=
  rto.foldl (fun g v =>
    if outDegreeG g v = 0 ∧ vtypeAt g v ≠ VertexType.Sample then clearVertexG g v else g) g

/-- Pass B: unlink founder parents that are summed out anyway — clear the
in-edges of a `Germline` vertex all of whose in-edge sources have degree 1. -/
def simpPassB (topo : List Nat) (g : Graph) : Graph :=
  topo.foldl (fun g v =>
    if vtypeAt g v ≠ VertexType.Germline then g
    else
      let ins := inEdgesG g v
      if ins.isEmpty then g
      else if ins.all (fun e => degreeG g e.src = 1) then clearInEdgesG g v
      else g) g

/-- Pass C: bypass a vertex with in-degree ≥ 1 and out-degree 1 into its only
child when the merged in-degree stays ≤ 2 and the ploidies agree; composed
edges get summed lengths and the bitwise union of the edge types. -/
def simpPassC (topo : List Nat) (g : Graph) : Graph :=
  topo.foldl (fun g v =>
    if inDegreeG g v = 0 ∨ outDegreeG g v ≠ 1 then g
    else
      match outEdgesG g v with
      | [oe] =>
        let child := oe.tgt
        if inDegreeG g child + inDegreeG g v - 1 > 2 then g
        else if ploidyAt g child ≠ ploidyAt g v then g
        else
          let g2 := (inEdgesG g v).foldl (fun g2 e =>
            addEdgeG g2 ⟨e.src, child, oe.len + e.len, EdgeKind.union oe.ety e.ety⟩) g
          clearVertexG g2 v
      | _ => g) g

/-- The `simplify`: the topological order is computed once, then the three passes
run in sequence on the mutating graph. -/
def simplifyG (g : Graph) : Graph :=
  let rto := revTopoOrderG g
  let topo := rto.reverse
  simpPassC topo (simpPassB topo (simpPassA rto g))

/-! ## The inheritance-model pruners -/

/-- The `InheritanceModel`; `mitochondrial` is mapped to `Maternal` by
`CHR_MODEL_MAP` before dispatch. -/
inductive InheritanceModel where
  | Autosomal
  | XLinked
  | YLinked
  | WLinked
  | ZLinked
  | Maternal
  | Paternal
deriving DecidableEq, Repr

def pruneAutosomal (g : Graph) : Except MutkError Graph := .ok g

/-- The `prune_ylinked`: delete germ edges touching a Female endpoint; clear
Female vertices (ploidy 0), set Male ploidy to 1, and require a known sex on
any vertex with descendants. -/
def pruneYlinked (g : Graph) : Except MutkError Graph :=
  let g1 := removeEdgeIfG g (fun e =>
    e.ety.germ && (sexAt g e.src == Sex.Female || sexAt g e.tgt == Sex.Female))
  (List.range g1.numVertices).foldlM (fun g v =>
    match sexAt g v with
    | Sex.Female => .ok (setPloidyG (clearVertexG g v) v 0)
    | Sex.Male => .ok (setPloidyG g v 1)
    | _ =>
      if outDegreeG g v ≠ 0 then
        .error (.InvalidSex "Y-linked inheritance requires every individual to have a known sex.")
      else .ok g) g1

/-- The `prune_xlinked`: delete germ edges whose endpoints are both Male; set
Male ploidy to 1. -/
def pruneXlinked (g : Graph) : Except MutkError Graph :=
  let g1 := removeEdgeIfG g (fun e =>
    e.ety.germ && (sexAt g e.src == Sex.Male && sexAt g e.tgt == Sex.Male))
  (List.range g1.numVertices).foldlM (fun g v =>
    match sexAt g v with
    | Sex.Female => .ok g
    | Sex.Male => .ok (setPloidyG g v 1)
    | _ =>
      if outDegreeG g v ≠ 0 then
        .error (.InvalidSex "X-linked inheritance requires every individual to have a known sex.")
      else .ok g) g1

/-- The `prune_wlinked`: the sex-mirrored version of `prune_ylinked`. -/
def pruneWlinked (g : Graph) : Except MutkError Graph :=
  let g1 := removeEdgeIfG g (fun e =>
    e.ety.germ && (sexAt g e.src == Sex.Male || sexAt g e.tgt == Sex.Male))
  (List.range g1.numVertices).foldlM (fun g v =>
    match sexAt g v with
    | Sex.Male => .ok (setPloidyG (clearVertexG g v) v 0)
    | Sex.Female => .ok (setPloidyG g v 1)
    | _ =>
      if outDegreeG g v ≠ 0 then
        .error (.InvalidSex "W-linked inheritance requires every individual to have a known sex.")
      else .ok g) g1

/-- The `prune_zlinked`: the sex-mirrored version of `prune_xlinked`. -/
def pruneZlinked (g : Graph) : Except MutkError Graph :=
  let g1 := removeEdgeIfG g (fun e =>
    e.ety.germ && (sexAt g e.src == Sex.Female && sexAt g e.tgt == Sex.Female))
  (List.range g1.numVertices).foldlM (fun g v =>
    match sexAt g v with
    | Sex.Male => .ok g
    | Sex.Female => .ok (setPloidyG g v 1)
    | _ =>
      if outDegreeG g v ≠ 0 then
        .error (.InvalidSex "Z-linked inheritance requires every individual to have a known sex.")
      else .ok g) g1

/-- The `prune_maternal`: delete every germ edge whose source is Male, then set
the ploidy of every vertex to 1. -/
def pruneMaternal (g : Graph) : Graph :=
  let g1 := removeEdgeIfG g (fun e => e.ety.germ && (sexAt g e.src == Sex.Male))
  ⟨g1.verts.map (fun p => { p with ploidy := 1 }), g1.edges⟩

/-- The function `prune_paternal`, translated literally from the source: its
edge filter is the same as that of `prune_maternal` — it deletes every germ
edge whose source is Male — and it then sets the ploidy of every vertex
to 1. -/
def prunePaternal (g : Graph) : Graph :=
  let g1 := removeEdgeIfG g (fun e => e.ety.germ && (sexAt g e.src == Sex.Male))
  ⟨g1.verts.map (fun p => { p with ploidy := 1 }), g1.edges⟩

/-- The `prune` dispatcher. -/
def pruneG (g : Graph) : InheritanceModel → Except MutkError Graph
  | .Autosomal => pruneAutosomal g
  | .YLinked => pruneYlinked g
  | .XLinked => pruneXlinked g
  | .WLinked => pruneWlinked g
  | .ZLinked => pruneZlinked g
  | .Maternal => .ok (pruneMaternal g)
  | .Paternal => .ok (prunePaternal g)

/-! ## `finalize` -/

def founderPredG (g : Graph) (v : Nat) : Bool :=
  inDegreeG g v == 0 && outDegreeG g v > 0 && vtypeAt g v == VertexType.Germline

def germPredG (g : Graph) (v : Nat) : Bool :=
  inDegreeG g v > 0 && vtypeAt g v == VertexType.Germline

def somaPredG (g : Graph) (v : Nat) : Bool :=
  degreeG g v > 0 && vtypeAt g v == VertexType.Somatic

def samplePredG (g : Graph) (v : Nat) : Bool :=
  degreeG g v > 0 && vtypeAt g v == VertexType.Sample

/-- The `vertex_order` of `finalize`: four `copy_if` passes over the
ancestors-first topological order. -/
def vertexOrderG (g : Graph) : List Nat :=
  let topo := topoOrderG g
  topo.filter (founderPredG g) ++ topo.filter (germPredG g) ++
    topo.filter (somaPredG g) ++ topo.filter (samplePredG g)

/-- Position of the first occurrence of `v` in a vertex list. -/
def posIn : List Nat → Nat → Option Nat
  | [], _ => none
  | w :: ws, v => if w = v then some 0 else (posIn ws v).map (fun i => i + 1)

/-- The `map_in_to_out`: position of an input vertex in the output graph
(`none` models the `-1` sentinel for dropped vertices). -/
def mapInToOut (g : Graph) (v : Nat) : Option Nat :=
  posIn (vertexOrderG g) v

/-- Label suffixing at the end of `finalize`. -/
def suffixLabel (p : VertexProp) : VertexProp :=
  if p.vtype = VertexType.Founder ∨ p.vtype = VertexType.Germline then
    { p with label := p.label ++ "/z" }
  else if p.vtype = VertexType.Somatic then
    { p with label := p.label ++ "/t" }
  else p

/-- The `finalize`: re-index kept vertices by `vertex_order`, recreate every edge
between the new indices (the C++ asserts that both endpoints were kept; edges
with a dropped endpoint do not occur and are dropped by the model), then add
the band suffixes to the labels. -/
def finalizeG (g : Graph) : Graph :=
  let vo := vertexOrderG g
  let verts := vo.map (fun v => suffixLabel (vpropAt g v))
  let edges := g.edges.filterMap (fun e =>
    match mapInToOut g e.src, mapInToOut g e.tgt with
    | some a, some b => some ⟨a, b, e.len, e.ety⟩
    | _, _ => none)
  ⟨verts, edges⟩

/-! ## `PrintGraph` (founding section) and `Construct` -/

/-- The vertex selection of the `founding:` section of `PrintGraph`: vertices
with in-degree 0, with no condition on the vertex type. -/
def foundingIdxG (g : Graph) : List Nat :=
  (List.range g.numVertices).filter (fun v => inDegreeG g v == 0)

/-- The `mutk::RelationshipGraph::Construct`.  `peeling_order` is called on the
finalized graph but only computes local data and debug output, so the
observable result is the finalized graph and the returned boolean. -/
def ConstructG (ped : Pedigree) (known : List String) (model : InheritanceModel)
    (mu muSomatic : ℚ) (normalizeSomaticTrees : Bool) :
    Except MutkError (Graph × Bool) := do
  let graph ← constructPedigreeGraph ped known normalizeSomaticTrees
  let graph := updateEdgeLengths graph mu muSomatic
  let graph := simplifyG graph
  let graph ← pruneG graph model
  let final := finalizeG graph
  return (final, true)

/-! ## `peeling_order`: dependencies, potentials, moralization, min-fill

Neighbor sets are `boost::container::flat_set`s: sorted, duplicate-free
lists.  The dependency vectors are `boost::sort`ed `small_vector`s, which keep
duplicates (a selfing parent appears once per parallel edge). -/

/-- flat_set insert. -/
def sinsert (x : Nat) : List Nat → List Nat
  | [] => [x]
  | y :: ys => if x < y then x :: y :: ys else if x = y then y :: ys else y :: sinsert x ys

/-- flat_set erase. -/
def serase (x : Nat) (l : List Nat) : List Nat := l.filter (fun y => y ≠ x)

/-- The `boost::sort` on a `small_vector`: ascending, duplicates kept. -/
def sortedInsKeep (x : Nat) : List Nat → List Nat
  | [] => [x]
  | y :: ys => if x ≤ y then x :: y :: ys else y :: sortedInsKeep x ys

def ssortKeep (l : List Nat) : List Nat := l.foldr sortedInsKeep []

/-- The `dependencies[v]`: the sorted in-vertexes of `v`. -/
def dependsG (g : Graph) (v : Nat) : List Nat := ssortKeep ((inEdgesG g v).map (fun e => e.src))

/-- The `potentials` vector, translated literally: it is *constructed with*
`num_vertices(graph)` default (empty) entries, and the loop then `push_back`s
a unary `{v}` whenever `v` has out-degree 0, and additionally — the two `if`s
are not chained — `{v}` for a founder or `{v} ∪ depends[v]` for a
non-founder. -/
def potentialsG (g : Graph) : List (List Nat) :=
  (List.range g.numVertices).foldl (fun acc v =>
    let acc := if outDegreeG g v = 0 then acc ++ [[v]] else acc
    if inDegreeG g v = 0 then acc ++ [[v]]
    else acc ++ [v :: dependsG g v]) (List.replicate g.numVertices ([] : List Nat))

/-- What §4.6 of the specification says the potentials list is: exactly one
factor per vertex — unary `{v}` for each leaf (out-degree 0) and each founder
(in-degree 0), and `{v} ∪ depends[v]` for every other vertex.  This
definition follows the words of the spec; `potentialsG` follows the source. -/
def potentialsSpecG (g : Graph) : List (List Nat) :=
  (List.range g.numVertices).map (fun v =>
    if outDegreeG g v = 0 ∨ inDegreeG g v = 0 then [v] else v :: dependsG g v)

def getN (nb : List (List Nat)) (v : Nat) : List Nat := (nb.get? v).getD []
def setN (nb : List (List Nat)) (v : Nat) (l : List Nat) : List (List Nat) := nb.set v l

/-- Moralization of one potential: for each pair of positions `it1 < it2`,
insert each endpoint into the neighbor set of the other. -/
def insertPairList (nb : List (List Nat)) : List Nat → List (List Nat)
  | [] => nb
  | x :: xs =>
    let nb2 := xs.foldl (fun nb y =>
      setN (setN nb x (sinsert y (getN nb x))) y (sinsert x (getN nb y))) nb
    insertPairList nb2 xs

/-- The `neighbors`: the moral graph of all potentials. -/
def moralNbrsG (g : Graph) : List (List Nat) :=
  (potentialsG g).foldl insertPairList (List.replicate g.numVertices ([] : List Nat))

/-- The `fill_in_count` inner sum: for each position `it1` and later position
`it2` of the set, count the pairs with `it2 ∉ neighbors[it1]`. -/
def countNonAdj (nb : List (List Nat)) : List Nat → Int
  | [] => 0
  | x :: xs =>
    Int.ofNat ((xs.filter (fun y => ¬ (getN nb x).contains y)).length) + countNonAdj nb xs

def fillInCount (nb : List (List Nat)) (v : Nat) : Int := countNonAdj nb (getN nb v)

/-- The `record_cmp_t`: `a` is *below* `b` in the heap order (boost.heap is a
max-heap, so the popped element is the one below no other). -/
def recordLess (a b : Int × Nat) : Bool :=
  if a.1 == b.1 then decide (a.2 < b.2) else decide (a.1 > b.1)

/-- The element the d-ary heap pops: a queued record below no other record in
the `record_cmp_t` order. -/
def maxRecord : List (Int × Nat) → Option (Int × Nat)
  | [] => none
  | x :: xs => some (xs.foldl (fun m y => if recordLess m y then y else m) x)

/-- The `top()` followed by `pop()`. -/
def popMax (q : List (Int × Nat)) : Option ((Int × Nat) × List (Int × Nat)) :=
  match maxRecord q with
  | none => none
  | some m => some (m, q.erase m)

/-- The state of the elimination loop: the evolving neighbor sets, the
priority queue contents (stored fill-in, vertex), and `elim_order` so far. -/
structure ElimState where
  nbrs : List (List Nat)
  queue : List (Int × Nat)
  order : List Nat
deriving DecidableEq, Repr

/-- The clique-update loop of the elimination body, translated literally:
for every `a` in `k = neighbors[v]`, when the popped score is positive insert
*every* `b ∈ k` into `neighbors[a]` — including `b = a`, so each member of
`k` is inserted into its own set — and then erase `v` from `neighbors[a]`.
`k` is bound here to the value of `neighbors[v]` at entry; in the C++ `k` is
a *reference* to the live flat_set, which only differs when `v ∈ k`, and then
the C++ erases from the container it is iterating (undefined behavior). -/
def cliquifyErase (score : Int) (v : Nat) (k : List Nat) (nb : List (List Nat)) :
    List (List Nat) :=
  k.foldl (fun nb a =>
    let nb' := if score > 0 then k.foldl (fun nb2 b => setN nb2 a (sinsert b (getN nb2 a))) nb
      else nb
    setN nb' a (serase v (getN nb' a))) nb

/-- The reprioritization loop: the queue record of each former neighbor gets its
fill-in recomputed (records of other vertices keep their stored values). -/
def updateFills (k : List Nat) (nb : List (List Nat)) (q : List (Int × Nat)) :
    List (Int × Nat) :=
  k.foldl (fun q a => q.map (fun r => if r.2 = a then (fillInCount nb a, a) else r)) q

/-- One iteration of the min-fill elimination loop. -/
def elimStep (s : ElimState) : Option ElimState :=
  match popMax s.queue with
  | none => none
  | some ((score, v), q1) =>
    let k := getN s.nbrs v
    let nb1 := cliquifyErase score v k s.nbrs
    let q2 := updateFills k nb1 q1
    some ⟨nb1, q2, s.order ++ [v]⟩

def elimLoop : Nat → ElimState → ElimState
  | 0, s => s
  | n + 1, s =>
    match elimStep s with
    | none => s
    | some s2 => elimLoop n s2

/-- The initial queue: one record per vertex with its fill-in count. -/
def elimInit (g : Graph) : ElimState :=
  let nb := moralNbrsG g
  ⟨nb, (List.range g.numVertices).map (fun v => (fillInCount nb v, v)), []⟩

/-- The whole elimination loop (`while(!priority_queue.empty())`): one pop
per vertex, so `numVertices` iterations drain the queue. -/
def elimRun (g : Graph) : ElimState := elimLoop g.numVertices (elimInit g)

/-- The faithfulness condition of one elimination iteration: the popped vertex
is not a member of its own neighbor set. When `v ∈ neighbors[v]` the C++ body
is undefined — the range-for over the live reference `k = neighbors[v]` erases
from (and, for positive score, inserts into) the flat_set it is iterating, and
the reprioritization loop dereferences the emptied heap handle `handles[v]` —
while the snapshot embedding (`cliquifyErase`, `updateFills`) stays defined.
`elimSafeLoop` replays the loop and checks the condition at every pop, so a
`true` run is one the embedding follows step for step. -/
def elimSafeLoop : Nat → ElimState → Bool
  | 0, _ => true
  | n + 1, s =>
    match popMax s.queue with
    | none => true
    | some ((score, v), q1) =>
      let k := getN s.nbrs v
      if v ∈ k then false
      else elimSafeLoop n ⟨cliquifyErase score v k s.nbrs,
        updateFills k (cliquifyErase score v k s.nbrs) q1, s.order ++ [v]⟩

/-- The whole elimination run is safe: every iteration of the C++ loop body is
well-defined on it. -/
def elimSafe (g : Graph) : Bool := elimSafeLoop g.numVertices (elimInit g)

/-! ## Concrete instances used to settle the claims -/

instance {ε α : Type} [DecidableEq ε] [DecidableEq α] : DecidableEq (Except ε α) := fun a b =>
  match a, b with
  | .ok x, .ok y =>
    if h : x = y then isTrue (by rw [h]) else isFalse (by intro hc; cases hc; exact h rfl)
  | .error x, .error y =>
    if h : x = y then isTrue (by rw [h]) else isFalse (by intro hc; cases hc; exact h rfl)
  | .ok _, .error _ => isFalse (by intro hc; cases hc)
  | .error _, .ok _ => isFalse (by intro hc; cases hc)

/-- Remap every vertex type by `f`, leaving labels, sexes, ploidies and edges
alone (used to state that a selection is independent of the vertex types). -/
def mapVtypes (g : Graph) (f : VertexType → VertexType) : Graph :=
  ⟨g.verts.map (fun p => { p with vtype := f p.vtype }), g.edges⟩

/-- A graph with a Male-source germ edge `u→v`, a Female-source germ edge
`w→v` and a Male-source somatic edge `u→s`. -/
def gC1 : Graph :=
  ⟨[⟨"u", Sex.Male, 2, VertexType.Germline⟩, ⟨"v", Sex.Female, 2, VertexType.Germline⟩,
    ⟨"w", Sex.Female, 2, VertexType.Germline⟩, ⟨"s", Sex.Unknown, 2, VertexType.Somatic⟩],
   [⟨0, 1, 1, germKind⟩, ⟨2, 1, 1, germKind⟩, ⟨0, 3, 1, somaKind⟩]⟩

/-- A finalized-shape chain `0 → 1 → 2` (founder, germline, sample): vertices
0 and 2 both start with fill-in 0. -/
def gPath : Graph :=
  ⟨[⟨"F/z", Sex.Unknown, 2, VertexType.Germline⟩, ⟨"G/z", Sex.Unknown, 2, VertexType.Germline⟩,
    ⟨"S", Sex.Unknown, 2, VertexType.Sample⟩],
   [⟨0, 1, 1, germKind⟩, ⟨1, 2, 1, somaKind⟩]⟩

/-- A single isolated vertex (a founder that is also a leaf). -/
def gOne : Graph := ⟨[⟨"a", Sex.Unknown, 2, VertexType.Germline⟩], []⟩

/-- A haploid member whose only named parent does not resolve. -/
def pedHap : Pedigree := ⟨[⟨"a", Sex.Unknown, some "ghost", none, none, none, ["haploid"], []⟩]⟩

/-- A clone member whose only named parent does not resolve. -/
def pedClone : Pedigree := ⟨[⟨"a", Sex.Unknown, some "ghost", none, none, none, ["clone"], []⟩]⟩

/-- A diploid member with a resolvable mother and an unresolvable father. -/
def pedDip : Pedigree := ⟨[⟨"b", Sex.Female, none, none, none, none, [], []⟩,
  ⟨"a", Sex.Unknown, some "ghost", some "b", none, none, [], []⟩]⟩

/-- Male founder `G` with two haploid children `V` and `W`; each child
carries a one-leaf somatic tree, so after simplification each child is
bypassed and a composed GERM|SOMA edge runs from `G` to each sample.  The `V`
chain has branch lengths `l1` (germline) and `l2` (somatic). -/
def pedChain (l1 l2 : ℚ) : Pedigree := ⟨[
  ⟨"G", Sex.Male, none, none, none, none, [], []⟩,
  ⟨"V", Sex.Unknown, some "G", none, some l1, none, ["haploid"],
    [some (.node "s" l2 Sex.Unknown 1 [])]⟩,
  ⟨"W", Sex.Unknown, some "G", none, some 1, none, ["haploid"],
    [some (.node "w" 1 Sex.Unknown 1 [])]⟩]⟩

def pedC5 : Pedigree := pedChain 1 1

/-- Union of a list of edge-type bitsets. -/
def unionAll (l : List EdgeKind) : EdgeKind := l.foldr EdgeKind.union ⟨false, false, false⟩

/-- The per-branch rate sum property: edge `e` stands for a nonempty chain
`S` of edges of the pre-scaling graph `g0`, its length is the sum over the
chain of the own rate of each branch (μ_germ for GERM_EDGE branches, μ_soma
otherwise) times the length of that branch, and its type is the bitwise
union of the types along the chain. -/
def chainSum (g0 : Graph) (m1 m2 : ℚ) (e : Edge) : Prop :=
  ∃ S : List Edge, S ≠ [] ∧ (∀ e0 ∈ S, e0 ∈ g0.edges) ∧
    e.len = (S.map (fun e0 => e0.len * (if e0.ety.germ then m1 else m2))).sum ∧
    e.ety = unionAll (S.map (fun e0 => e0.ety))

/-- The graph `construct_pedigree_graph` produces for `pedChain l1 l2`:
Male founder `G`, haploid children `V` and `W`, and one somatic leaf under
each child already relabelled `Sample`. -/
def gChainPre (l1 l2 : ℚ) : Graph :=
  ⟨[⟨"G", Sex.Male, 2, VertexType.Germline⟩, ⟨"V", Sex.Unknown, 1, VertexType.Germline⟩,
    ⟨"W", Sex.Unknown, 1, VertexType.Germline⟩, ⟨"s", Sex.Unknown, 1, VertexType.Sample⟩,
    ⟨"w", Sex.Unknown, 1, VertexType.Sample⟩],
   [⟨0, 1, l1, germKind⟩, ⟨0, 2, 1, germKind⟩, ⟨1, 3, l2, somaKind⟩, ⟨2, 4, 1, somaKind⟩]⟩

/-- The finalized graph for `pedC5` with μ_germ 2 and μ_soma 3: each composed
edge length is written as the arithmetic term the pipeline builds
(somatic branch times μ_soma plus germline branch times μ_germ). -/
def gC5final : Graph :=
  ⟨[⟨"G/z", Sex.Male, 2, VertexType.Germline⟩, ⟨"s", Sex.Unknown, 1, VertexType.Sample⟩,
    ⟨"w", Sex.Unknown, 1, VertexType.Sample⟩],
   [⟨0, 2, 1 * 3 + 1 * 2, ⟨true, true, false⟩⟩, ⟨0, 1, 1 * 3 + 1 * 2, ⟨true, true, false⟩⟩]⟩

/-- One member whose somatic tree has an internal node `s0` with two leaf
children `s1`, `s2`; all three labels are known samples. -/
def pedC6 : Pedigree := ⟨[
  ⟨"A", Sex.Unknown, none, none, none, none, [],
    [some (.node "s0" 1 Sex.Unknown 2
      [.node "s1" 1 Sex.Unknown 2 [], .node "s2" 1 Sex.Unknown 2 []])]⟩]⟩

/-- The finalized graph for `pedC6`: the Sample vertex `s0` (index 1) keeps
its two outgoing edges. -/
def gC6final : Graph :=
  ⟨[⟨"A/z", Sex.Unknown, 2, VertexType.Germline⟩, ⟨"s0", Sex.Unknown, 2, VertexType.Sample⟩,
    ⟨"s2", Sex.Unknown, 2, VertexType.Sample⟩, ⟨"s1", Sex.Unknown, 2, VertexType.Sample⟩],
   [⟨0, 1, 1 * 1, somaKind⟩, ⟨1, 3, 1 * 1, somaKind⟩, ⟨1, 2, 1 * 1, somaKind⟩]⟩

/-- A consanguineous pedigree shape (two full sibs 4 and 5 whose children 6
and 7 have a common child 8; 2 and 3 are the unrelated co-parents): its moral
graph contains the chordless cycle 4–6, 6–7, 7–5, 5–4 after the leaves peel
off, so min-fill eventually pops a vertex with positive fill-in. -/
def gC7 : Graph :=
  ⟨(List.range 9).map (fun _ => ⟨"m", Sex.Unknown, 2, VertexType.Germline⟩),
   [⟨0, 4, 1, germKind⟩, ⟨1, 4, 1, germKind⟩, ⟨0, 5, 1, germKind⟩, ⟨1, 5, 1, germKind⟩,
    ⟨2, 6, 1, germKind⟩, ⟨4, 6, 1, germKind⟩, ⟨3, 7, 1, germKind⟩, ⟨5, 7, 1, germKind⟩,
    ⟨6, 8, 1, germKind⟩, ⟨7, 8, 1, germKind⟩]⟩

/-! ## Theorems -/

/-- C1: the claim says pruning under the Paternal model deletes a GERM_EDGE
`u→v` exactly when `sex(u) = Female` and afterwards sets every ploidy to 1.
On `gC1` the function `prune_paternal` of the source does the opposite on the edge rule: it
deletes the Male-source germ edge `0→1` and keeps the Female-source germ edge
`2→1` (non-germ edges are untouched); the ploidy part holds — every vertex
ends with ploidy 1. -/
theorem C1_prune_paternal_deletes_male_source :
    sexAt gC1 0 = Sex.Male ∧ sexAt gC1 2 = Sex.Female ∧
    (⟨0, 1, 1, germKind⟩ : Edge) ∈ gC1.edges ∧
    (⟨0, 1, 1, germKind⟩ : Edge) ∉ (prunePaternal gC1).edges ∧
    (⟨2, 1, 1, germKind⟩ : Edge) ∈ (prunePaternal gC1).edges ∧
    (⟨0, 3, 1, somaKind⟩ : Edge) ∈ (prunePaternal gC1).edges ∧
    (∀ p ∈ (prunePaternal gC1).verts, p.ploidy = 1) := by
  decide

/-- C2 counterexample: in `gPath`, vertices 0 and 2 enter the priority queue
with equal fill-in 0, yet the elimination order is `[2, 1, 0]`: the *larger*
index 2 is popped and eliminated before 0, contradicting the claim that ties
on fill-in are broken by smaller vertex index. -/
theorem C2_counterexample :
    fillInCount (moralNbrsG gPath) 0 = 0 ∧ fillInCount (moralNbrsG gPath) 2 = 0 ∧
    (elimInit gPath).queue = [(0, 0), (1, 1), (0, 2)] ∧
    (elimRun gPath).order = [2, 1, 0] := by
  decide

/-- C3 counterexample: for the one-vertex graph `gOne` the claim predicts the
single factor list `[[0]]` (`potentialsSpecG`), but the source builds
`[[], [0], [0]]`: one empty factor left over from the sizing constructor and
the unary factor `{0}` twice (once from the out-degree-0 push, once from the
founder push). -/
theorem C3_counterexample :
    potentialsG gOne = [[], [0], [0]] ∧ potentialsSpecG gOne = [[0]] ∧
    potentialsG gOne ≠ potentialsSpecG gOne ∧
    [] ∈ potentialsG gOne ∧ (potentialsG gOne).count [0] = 2 := by
  decide

/-- C4: for an unresolvable parent reference, the clone and diploid branches
of `add_edges_to_pedigree_graph` raise the pedigree error after only the
range check, but the haploid branch first reads `vertex_sex` of the
out-of-range parent position — an out-of-bounds property-map read (undefined
behavior), performed before the `parent >= NumberOfMembers()` test — so the
claim fails in the haploid case. -/
theorem C4_haploid_reads_unresolved_parent :
    constructPedigreeGraph pedHap [] false = .error .UndefinedRead ∧
    constructPedigreeGraph pedClone [] false = .error (.PedigreeInvalid
      "Unable to construct graph for pedigree; the clone parent of a is unknown.") ∧
    constructPedigreeGraph pedDip [] false = .error (.PedigreeInvalid
      "Unable to construct graph for pedigree; the father of a is unknown.") := by
  decide

/-- C7: on `gC7` the min-fill loop pops vertex 7 with stored fill-in 1 > 0 at
its fourth iteration, so the clique-update loop runs `neighbors[a].insert(b)`
for all `a, b ∈ k = {5, 6}` — including `b = a` — after which vertices 5 and
6 are members of their own neighbor flat_sets; the fifth pop is vertex 6
itself, and for it the C++ body executes `neighbors[a].erase(v)` with
`a = v = 6`, i.e. it erases from (and, when the score is positive, inserts
into) the boost flat_set the range-for is currently iterating: iterator
invalidation, undefined behavior.  The junction tree the claim speaks about
is built from these neighbor sets after the loop, so on this input the code
does not compute a well-defined junction tree at all. -/
theorem C7_elimination_hits_self_membership :
    (elimLoop 3 (elimInit gC7)).order = [8, 3, 2] ∧
    popMax (elimLoop 3 (elimInit gC7)).queue =
      some ((1, 7), [(1, 0), (1, 1), (2, 4), (2, 5), (1, 6)]) ∧
    ((1 : Int) > 0) ∧
    getN (elimLoop 4 (elimInit gC7)).nbrs 5 = [0, 1, 5, 6] ∧
    getN (elimLoop 4 (elimInit gC7)).nbrs 6 = [4, 5, 6] ∧
    popMax (elimLoop 4 (elimInit gC7)).queue = some ((1, 6), [(1, 0), (1, 1), (2, 4), (2, 5)]) ∧
    6 ∈ getN (elimLoop 4 (elimInit gC7)).nbrs 6 := by
  decide

/-! ### The heap order -/

theorem recordLess_iff (a b : Int × Nat) :
    recordLess a b = true ↔ ((a.1 = b.1 ∧ a.2 < b.2) ∨ b.1 < a.1) := by
  unfold recordLess
  by_cases h2 : a.1 = b.1
  · simp [h2]
  · have h : (a.1 == b.1) = false := by simpa using h2
    simp only [h, Bool.false_eq_true, if_false, decide_eq_true_eq, gt_iff_lt]
    omega

theorem recordLess_irrefl (a : Int × Nat) : recordLess a a = false := by
  simp [recordLess]

theorem recordLess_trans {a b c : Int × Nat}
    (h1 : recordLess a b = true) (h2 : recordLess b c = true) : recordLess a c = true := by
  rw [recordLess_iff] at h1 h2 ⊢
  omega

theorem recordLess_total {a b : Int × Nat} (h : ¬ recordLess a b = true) :
    a = b ∨ recordLess b a = true := by
  rw [recordLess_iff] at h
  rw [recordLess_iff]
  by_cases h1 : a.1 = b.1
  · by_cases h2 : a.2 = b.2
    · exact Or.inl (Prod.ext h1 h2)
    · right; left; omega
  · right; right; omega

/-- The element `maxRecord` returns is one of the queued records. -/
theorem foldl_maxRecord_mem (xs : List (Int × Nat)) (acc : Int × Nat) :
    xs.foldl (fun m y => if recordLess m y then y else m) acc = acc ∨
    xs.foldl (fun m y => if recordLess m y then y else m) acc ∈ xs := by
  induction xs generalizing acc with
  | nil => exact Or.inl rfl
  | cons y ys ih =>
    rw [List.foldl_cons]
    rcases ih (if recordLess acc y then y else acc) with h | h
    · rw [h]
      split
      · exact Or.inr (List.mem_cons_self _ _)
      · exact Or.inl rfl
    · exact Or.inr (List.mem_cons_of_mem _ h)

/-- No queued record is above the element `maxRecord` returns. -/
theorem foldl_maxRecord_not_below (xs : List (Int × Nat)) (acc : Int × Nat) :
    ¬ recordLess (xs.foldl (fun m y => if recordLess m y then y else m) acc) acc = true ∧
    ∀ x ∈ xs, ¬ recordLess (xs.foldl (fun m y => if recordLess m y then y else m) acc) x = true := by
  induction xs generalizing acc with
  | nil =>
    refine ⟨?_, by intro x hx; cases hx⟩
    simp [recordLess_irrefl]
  | cons y ys ih =>
    rw [List.foldl_cons]
    by_cases hy : recordLess acc y = true
    · rw [if_pos hy]
      obtain ⟨h1, h2⟩ := ih y
      refine ⟨?_, ?_⟩
      · intro hc; exact h1 (recordLess_trans hc hy)
      · intro x hx
        rcases List.mem_cons.mp hx with rfl | hx
        · exact h1
        · exact h2 x hx
    · rw [if_neg hy]
      obtain ⟨h1, h2⟩ := ih acc
      refine ⟨h1, ?_⟩
      intro x hx
      rcases List.mem_cons.mp hx with rfl | hx
      · intro hc
        rcases recordLess_total hy with rfl | hlt
        · exact h1 hc
        · exact h1 (recordLess_trans hc hlt)
      · exact h2 x hx

theorem maxRecord_mem {q : List (Int × Nat)} {m : Int × Nat} (h : maxRecord q = some m) :
    m ∈ q := by
  match q, h with
  | x :: xs, h =>
    have h2 : xs.foldl (fun m y => if recordLess m y then y else m) x = m := by
      simpa [maxRecord] using h
    rcases foldl_maxRecord_mem xs x with h3 | h3
    · rw [h2] at h3; rw [← h3]; exact List.mem_cons_self _ _
    · rw [h2] at h3; exact List.mem_cons_of_mem _ h3

theorem maxRecord_not_below {q : List (Int × Nat)} {m : Int × Nat} (h : maxRecord q = some m) :
    ∀ x ∈ q, ¬ recordLess m x = true := by
  match q, h with
  | x :: xs, h =>
    have h2 : xs.foldl (fun m y => if recordLess m y then y else m) x = m := by
      simpa [maxRecord] using h
    obtain ⟨h1, h3⟩ := foldl_maxRecord_not_below xs x
    rw [h2] at h1 h3
    intro z hz
    rcases List.mem_cons.mp hz with rfl | hz
    · exact h1
    · exact h3 z hz

/-- C2 (amended): when two queued records carry the same fill-in value, the
record popped by the d-ary heap is never the one with the *smaller* vertex
index — `record_cmp_t` makes the queue a max-heap on (−fill_in, +index), so
ties on fill_in are broken by *larger* vertex index. -/
theorem C2_pop_prefers_larger_index (q : List (Int × Nat)) (f : Int) (a b : Nat)
    (ha : (f, a) ∈ q) (hb : (f, b) ∈ q) (hab : a < b) :
    ∀ r qs, popMax q = some (r, qs) → r ≠ (f, a) := by
  intro r qs hpop hr
  subst hr
  have hmr : maxRecord q = some (f, a) := by
    unfold popMax at hpop
    cases h : maxRecord q with
    | none => rw [h] at hpop; cases hpop
    | some m => rw [h] at hpop; cases hpop; rfl
  have := maxRecord_not_below hmr (f, b) hb
  exact this ((recordLess_iff (f, a) (f, b)).mpr (Or.inl ⟨rfl, hab⟩))

/-- Witness for the amended C2 at the concrete two-record queue with equal
fill-ins: the popped record is not the one with the smaller index. -/
theorem C2_pop_prefers_larger_index_witness :
    ¬ popMax [((0 : Int), (0 : Nat)), (0, 1)] = some ((0, 0), [(0, 1)]) := by
  intro h
  exact C2_pop_prefers_larger_index [(0, 0), (0, 1)] 0 0 1 (by decide) (by decide)
    (by decide) _ _ h rfl

/-! ### The potentials list -/

theorem foldl_append_blocks {α β : Type} (h : β → List α) (l : List β) :
    ∀ init : List α, l.foldl (fun acc v => acc ++ h v) init = init ++ l.flatMap h := by
  induction l with
  | nil => intro init; simp
  | cons x xs ih =>
    intro init
    rw [List.foldl_cons, ih, List.flatMap_cons, List.append_assoc]

/-- C3 (amended): the potentials list the source builds consists of
`numVertices` empty factors (the sizing constructor) followed, for each
vertex `v` in index order, by a unary factor `{v}` when `v` is a leaf
(out-degree 0), and then by `{v}` when `v` is a founder (in-degree 0) or by
`{v} ∪ depends[v]` otherwise — so a leaf that is not a founder contributes
two factors, and empty and duplicate factors are present. -/
theorem C3_potentials_shape (g : Graph) :
    potentialsG g = List.replicate g.numVertices [] ++
      (List.range g.numVertices).flatMap (fun v =>
        (if outDegreeG g v = 0 then [[v]] else []) ++
        [if inDegreeG g v = 0 then [v] else v :: dependsG g v]) := by
  unfold potentialsG
  have hstep : (fun (acc : List (List Nat)) v =>
      let acc := if outDegreeG g v = 0 then acc ++ [[v]] else acc
      if inDegreeG g v = 0 then acc ++ [[v]] else acc ++ [v :: dependsG g v]) =
      (fun acc v => acc ++ ((if outDegreeG g v = 0 then [[v]] else []) ++
        [if inDegreeG g v = 0 then [v] else v :: dependsG g v])) := by
    funext acc v
    by_cases h1 : outDegreeG g v = 0 <;> by_cases h2 : inDegreeG g v = 0 <;>
      simp [h1, h2]
  rw [hstep, foldl_append_blocks]

/-! ### The elimination loop drains the queue -/

theorem updateFills_snd (k : List Nat) (nb : List (List Nat)) (q : List (Int × Nat)) :
    (updateFills k nb q).map Prod.snd = q.map Prod.snd := by
  unfold updateFills
  induction k generalizing q with
  | nil => rfl
  | cons a as ih =>
    rw [List.foldl_cons, ih, List.map_map]
    apply List.map_congr_left
    intro r _
    by_cases h : r.2 = a <;> simp [h]

theorem perm_cons_erase_of_mem {α : Type} [BEq α] [LawfulBEq α] {a : α} {l : List α}
    (h : a ∈ l) : l.Perm (a :: l.erase a) := by
  induction l with
  | nil => cases h
  | cons x xs ih =>
    rw [List.erase_cons]
    by_cases hx : (x == a) = true
    · have hxa : x = a := eq_of_beq hx
      subst hxa
      rw [if_pos hx]
    · rw [if_neg hx]
      have hmem : a ∈ xs := by
        rcases List.mem_cons.mp h with rfl | h2
        · exact absurd (beq_self_eq_true a) (by simpa using hx)
        · exact h2
      exact ((ih hmem).cons x).trans (List.Perm.swap a x (xs.erase a))

theorem elimStep_spec {s : ElimState} {x : Int × Nat} {xs : List (Int × Nat)}
    (hq : s.queue = x :: xs) :
    ∃ m s2, elimStep s = some s2 ∧ m ∈ s.queue ∧
      s2.order = s.order ++ [m.2] ∧
      s2.queue.map Prod.snd = (s.queue.erase m).map Prod.snd := by
  rcases hfold : xs.foldl (fun m y => if recordLess m y then y else m) x with ⟨f, v⟩
  have hmr : maxRecord s.queue = some (f, v) := by
    rw [hq]
    exact congrArg some hfold
  have hpop : popMax s.queue = some ((f, v), s.queue.erase (f, v)) := by
    unfold popMax
    rw [hmr]
  have hstep : elimStep s = some ⟨cliquifyErase f v (getN s.nbrs v) s.nbrs,
      updateFills (getN s.nbrs v) (cliquifyErase f v (getN s.nbrs v) s.nbrs)
        (s.queue.erase (f, v)),
      s.order ++ [v]⟩ := by
    unfold elimStep
    rw [hpop]
  exact ⟨(f, v), _, hstep, maxRecord_mem hmr, rfl, updateFills_snd _ _ _⟩

theorem elimLoop_drains (n : Nat) :
    ∀ s : ElimState, s.queue.length = n →
      (elimLoop n s).queue = [] ∧
      (elimLoop n s).order.Perm (s.order ++ s.queue.map Prod.snd) := by
  induction n with
  | zero =>
    intro s hs
    have hnil : s.queue = [] := List.eq_nil_of_length_eq_zero hs
    rw [elimLoop]
    exact ⟨hnil, by simp [hnil]⟩
  | succ n ih =>
    intro s hs
    rcases hq : s.queue with _ | ⟨x, xs⟩
    · rw [hq] at hs; cases hs
    · obtain ⟨m, s2, hstep, hmem, horder, hqueue⟩ := elimStep_spec hq
      have hlen1 : s2.queue.length = (s.queue.erase m).length := by
        have h2 := congrArg List.length hqueue
        simpa using h2
      have hlen2 : s2.queue.length = n := by
        rw [hlen1, List.length_erase_of_mem hmem, hs]
        omega
      have hl : elimLoop (n + 1) s = elimLoop n s2 := by
        rw [elimLoop, hstep]
      obtain ⟨hq2, hp2⟩ := ih s2 hlen2
      rw [hl, ← hq]
      refine ⟨hq2, ?_⟩
      have hperm1 : s.queue.Perm (m :: s.queue.erase m) := perm_cons_erase_of_mem hmem
      have hperm2 : (s.queue.map Prod.snd).Perm (m.2 :: (s.queue.erase m).map Prod.snd) := by
        simpa using hperm1.map Prod.snd
      have hcalc1 : (elimLoop n s2).order.Perm
          ((s.order ++ [m.2]) ++ (s.queue.erase m).map Prod.snd) := by
        rw [← horder, ← hqueue]
        exact hp2
      have hcalc2 : (s.order ++ [m.2]) ++ (s.queue.erase m).map Prod.snd =
          s.order ++ (m.2 :: (s.queue.erase m).map Prod.snd) := by simp
      rw [hcalc2] at hcalc1
      exact hcalc1.trans ((hperm2.symm).append_left s.order)

/-- C8 (counterexample): on the cousin-marriage graph the elimination run
reaches a pop whose vertex is a member of its own neighbor set, so the C++
loop body — erasing from the flat_set it is iterating and dereferencing the
emptied heap handle of the popped vertex — is not well-defined there; the
unconditional termination-with-complete-order the claim states is therefore
not a property of the program on every graph. -/
theorem C8_counterexample : elimSafe gC7 = false := by decide

/-- C8: on every graph whose elimination run is safe — no popped vertex is a
member of its own neighbor set at pop time, so each iteration of the C++
loop body is well-defined and the embedding follows it step for step — the
min-fill elimination loop terminates with the priority queue empty,
`elim_order` has exactly `numVertices` entries, and it is a permutation of
the vertex set: each vertex is eliminated exactly once. -/
theorem C8_elimination_complete (g : Graph) (hsafe : elimSafe g = true) :
    (elimRun g).queue = [] ∧
    (elimRun g).order.length = g.numVertices ∧
    (elimRun g).order.Perm (List.range g.numVertices) := by
  have hinit : (elimInit g).queue.length = g.numVertices := by
    simp [elimInit]
  have h := elimLoop_drains g.numVertices (elimInit g) hinit
  have hsnd : (elimInit g).queue.map Prod.snd = List.range g.numVertices := by
    show ((List.range g.numVertices).map (fun v => (fillInCount (moralNbrsG g) v, v))).map Prod.snd
        = List.range g.numVertices
    rw [List.map_map]
    exact (List.map_congr_left (fun a _ => rfl)).trans (List.map_id _)
  have hord : (elimInit g).order = [] := rfl
  unfold elimRun
  refine ⟨h.1, ?_, ?_⟩
  · have := h.2.length_eq
    rw [hord, hsnd] at this
    simpa using this
  · have := h.2
    rw [hord, hsnd] at this
    simpa using this

/-- The C8 theorem instantiated at the three-vertex path graph, whose
elimination run is safe. -/
theorem C8_elimination_complete_witness :
    elimSafe gPath = true ∧
    ((elimRun gPath).queue = [] ∧
      (elimRun gPath).order.length = gPath.numVertices ∧
      (elimRun gPath).order.Perm (List.range gPath.numVertices)) :=
  ⟨by decide, C8_elimination_complete gPath (by decide)⟩

/-! ### `Construct` returns -/

theorem except_bind_ok {ε α β : Type} {x : Except ε α} {f : α → Except ε β} {b : β}
    (h : x >>= f = .ok b) : ∃ a, x = .ok a ∧ f a = .ok b := by
  cases x with
  | ok a => exact ⟨a, rfl, h⟩
  | error e => exact Except.noConfusion h

/-- C9: whenever `Construct` returns normally (rather than throwing), the
boolean it returns is `true`; the return value never signals failure — every
error condition surfaces as an exception. -/
theorem C9_construct_ok_returns_true (ped : Pedigree) (known : List String)
    (model : InheritanceModel) (mu muSomatic : ℚ) (norm : Bool) (r : Graph × Bool)
    (h : ConstructG ped known model mu muSomatic norm = .ok r) : r.2 = true := by
  unfold ConstructG at h
  obtain ⟨g1, _, h⟩ := except_bind_ok h
  obtain ⟨g2, _, h⟩ := except_bind_ok h
  have h2 : (finalizeG g2, true) = r := Except.ok.inj h
  rw [← h2]

/-- Witness for C9 at a concrete pedigree whose construction succeeds. -/
theorem C9_construct_ok_returns_true_witness : ((gC5final, true) : Graph × Bool).2 = true :=
  C9_construct_ok_returns_true pedC5 ["s", "w"] .Autosomal 2 3 false (gC5final, true) (by rfl)

/-! ### `finalize` and vertex re-indexing -/

theorem posIn_get {l : List Nat} {v i : Nat} (h : posIn l v = some i) : l.get? i = some v := by
  induction l generalizing i with
  | nil => cases h
  | cons w ws ih =>
    unfold posIn at h
    by_cases hw : w = v
    · rw [if_pos hw] at h
      cases h
      simp [hw]
    · rw [if_neg hw] at h
      cases hpi : posIn ws v with
      | none => rw [hpi] at h; cases h
      | some j =>
        rw [hpi] at h
        have hij : j + 1 = i := by simpa using h
        rw [← hij]
        simpa using ih hpi

theorem countP_filterMap_congr {α β : Type} (f : α → Option β) (p : β → Bool) (q : α → Bool) :
    ∀ l : List α, (∀ a ∈ l, ∃ b, f a = some b ∧ p b = q a) →
      (l.filterMap f).countP p = l.countP q := by
  intro l
  induction l with
  | nil => intro _; rfl
  | cons x xs ih =>
    intro h
    obtain ⟨b, hb, hpq⟩ := h x (List.mem_cons_self x xs)
    rw [List.filterMap_cons_some hb, List.countP_cons, List.countP_cons, hpq,
      ih (fun a ha => h a (List.mem_cons_of_mem x ha))]

theorem suffixLabel_vtype (p : VertexProp) : (suffixLabel p).vtype = p.vtype := by
  unfold suffixLabel
  split
  · rfl
  · split <;> rfl

/-- The edge list of `finalize` is the input edge list with both endpoints
re-indexed through `map_in_to_out` (edges with a dropped endpoint removed). -/
theorem finalizeG_edges (g : Graph) :
    (finalizeG g).edges = g.edges.filterMap (fun e =>
      match mapInToOut g e.src, mapInToOut g e.tgt with
      | some a, some b => some ⟨a, b, e.len, e.ety⟩
      | _, _ => none) := rfl

theorem finalizeG_verts (g : Graph) :
    (finalizeG g).verts = (vertexOrderG g).map (fun v => suffixLabel (vpropAt g v)) := rfl

/-- C6 (amended): finalization preserves, for every kept vertex, the in-degree,
out-degree and vertex type (only the label may gain a band suffix).  A Sample
vertex therefore has in-degree 1 and out-degree 0 in the finalized graph
exactly when simplification and pruning leave it so; when the known-sample
set names an internal somatic vertex, the finalized graph contains a Sample
vertex of positive out-degree (see the counterexample). -/
theorem C6_finalize_preserves_degrees (g : Graph) (v w : Nat)
    (hv : mapInToOut g v = some w)
    (hend : ∀ e ∈ g.edges, (mapInToOut g e.src).isSome ∧ (mapInToOut g e.tgt).isSome) :
    inDegreeG (finalizeG g) w = inDegreeG g v ∧
    outDegreeG (finalizeG g) w = outDegreeG g v ∧
    vtypeAt (finalizeG g) w = vtypeAt g v := by
  have hkey : ∀ (x : Nat) (b : Nat), mapInToOut g x = some b → ((b = w) ↔ (x = v)) := by
    intro x b hx
    constructor
    · intro hbw
      rw [hbw] at hx
      have h1 := posIn_get (show posIn (vertexOrderG g) x = some w from hx)
      have h2 := posIn_get (show posIn (vertexOrderG g) v = some w from hv)
      rw [h1] at h2
      exact Option.some.inj h2
    · intro hxv
      subst hxv
      rw [hx] at hv
      exact Option.some.inj hv
  refine ⟨?_, ?_, ?_⟩
  · unfold inDegreeG inEdgesG
    rw [finalizeG_edges]
    rw [← List.countP_eq_length_filter, ← List.countP_eq_length_filter]
    apply countP_filterMap_congr
    intro e he
    obtain ⟨hs, ht⟩ := hend e he
    cases hse : mapInToOut g e.src with
    | none => rw [hse] at hs; cases hs
    | some a =>
      cases hte : mapInToOut g e.tgt with
      | none => rw [hte] at ht; cases ht
      | some b =>
        refine ⟨⟨a, b, e.len, e.ety⟩, ?_, ?_⟩
        · simp only [hse, hte]
        · simp only [decide_eq_decide]
          exact hkey e.tgt b hte
  · unfold outDegreeG outEdgesG
    rw [finalizeG_edges]
    rw [← List.countP_eq_length_filter, ← List.countP_eq_length_filter]
    apply countP_filterMap_congr
    intro e he
    obtain ⟨hs, ht⟩ := hend e he
    cases hse : mapInToOut g e.src with
    | none => rw [hse] at hs; cases hs
    | some a =>
      cases hte : mapInToOut g e.tgt with
      | none => rw [hte] at ht; cases ht
      | some b =>
        refine ⟨⟨a, b, e.len, e.ety⟩, ?_, ?_⟩
        · simp only [hse, hte]
        · simp only [decide_eq_decide]
          exact hkey e.src a hse
  · have hget : (finalizeG g).verts.get? w = some (suffixLabel (vpropAt g v)) := by
      rw [finalizeG_verts, List.get?_map]
      unfold mapInToOut at hv
      rw [posIn_get hv]
      rfl
    unfold vtypeAt vpropAt
    rw [hget]
    exact suffixLabel_vtype _

/-- Witness for the amended C6 on the concrete chain graph `gPath`, whose
Sample vertex keeps its degrees through finalization. -/
theorem C6_finalize_preserves_degrees_witness :
    inDegreeG (finalizeG gPath) 2 = inDegreeG gPath 2 ∧
    outDegreeG (finalizeG gPath) 2 = outDegreeG gPath 2 ∧
    vtypeAt (finalizeG gPath) 2 = vtypeAt gPath 2 :=
  C6_finalize_preserves_degrees gPath 2 2 (by decide) (by decide)

/-- C6 counterexample: naming the internal somatic vertex `s0` in the
known-sample set gives a successful `Construct` whose finalized graph has a
`Sample` vertex (index 1, label `s0`) with out-degree 2 — not 0 as the claim
requires (its in-degree is 1). -/
theorem C6_counterexample :
    ConstructG pedC6 ["s0", "s1", "s2"] .Autosomal 1 1 false = .ok (gC6final, true) ∧
    vtypeAt gC6final 1 = VertexType.Sample ∧
    outDegreeG gC6final 1 = 2 ∧ inDegreeG gC6final 1 = 1 := by
  exact ⟨rfl, rfl, rfl, rfl⟩

/-- C5 counterexample: for the chain pedigree with both branch lengths 1,
μ_germ = 2 and μ_soma = 3, `Construct` succeeds and the finalized composed
edge `G/z → s` (source 0, target 1) has GERM_EDGE set in its type but length
1·3 + 1·2 = 5 — not μ_germ times the sum of the contracted original branch
lengths, 2·(1+1) = 4 — because each contracted branch was scaled by its own
rate before the chain was bypassed. -/
theorem C5_counterexample :
    ConstructG pedC5 ["s", "w"] .Autosomal 2 3 false = .ok (gC5final, true) ∧
    (⟨0, 1, 1 * 3 + 1 * 2, ⟨true, true, false⟩⟩ : Edge) ∈ gC5final.edges ∧
    (⟨0, 1, 1 * 3 + 1 * 2, ⟨true, true, false⟩⟩ : Edge).ety.germ = true ∧
    ((1 : ℚ) * 3 + 1 * 2 = 5) ∧ ¬ ((1 : ℚ) * 3 + 1 * 2 = 2 * (1 + 1)) := by
  refine ⟨rfl, .tail _ (.head _), rfl, by norm_num, by norm_num⟩

/-! ### Per-branch rate sums through scaling, simplification and pruning -/

theorem foldl_preserves {α : Type} (P : Graph → Prop) (step : Graph → α → Graph)
    (hstep : ∀ g a, P g → P (step g a)) :
    ∀ (l : List α) (g : Graph), P g → P (l.foldl step g) := by
  intro l
  induction l with
  | nil => intro g hg; exact hg
  | cons x xs ih => intro g hg; exact ih _ (hstep g x hg)

theorem foldlM_preserves {α : Type} (P : Graph → Prop)
    (step : Graph → α → Except MutkError Graph)
    (hstep : ∀ g a g2, step g a = .ok g2 → P g → P g2) :
    ∀ (l : List α) (g g2 : Graph), l.foldlM step g = .ok g2 → P g → P g2 := by
  intro l
  induction l with
  | nil =>
    intro g g2 h hg
    rw [List.foldlM_nil] at h
    have h2 : g = g2 := Except.ok.inj h
    rw [← h2]
    exact hg
  | cons x xs ih =>
    intro g g2 h hg
    rw [List.foldlM_cons] at h
    obtain ⟨g1, h1, h2⟩ := except_bind_ok h
    exact ih g1 g2 h2 (hstep g x g1 h1 hg)

theorem union_false_right (k : EdgeKind) : EdgeKind.union k ⟨false, false, false⟩ = k := by
  cases k
  simp [EdgeKind.union]

theorem union_false_left (k : EdgeKind) : EdgeKind.union ⟨false, false, false⟩ k = k := by
  cases k
  simp [EdgeKind.union]

theorem union_assoc (a b c : EdgeKind) :
    EdgeKind.union (EdgeKind.union a b) c = EdgeKind.union a (EdgeKind.union b c) := by
  cases a; cases b; cases c
  simp [EdgeKind.union, Bool.or_assoc]

theorem unionAll_append (a b : List EdgeKind) :
    unionAll (a ++ b) = EdgeKind.union (unionAll a) (unionAll b) := by
  induction a with
  | nil => simp [unionAll, union_false_left]
  | cons x xs ih =>
    simp only [List.cons_append, unionAll, List.foldr_cons] at *
    rw [ih, union_assoc]

theorem chainSum_single {g0 : Graph} (m1 m2 : ℚ) {e0 : Edge} (h : e0 ∈ g0.edges) :
    chainSum g0 m1 m2 ⟨e0.src, e0.tgt, e0.len * (if e0.ety.germ then m1 else m2), e0.ety⟩ := by
  refine ⟨[e0], by simp, by simpa using h, by simp, ?_⟩
  simp [unionAll, union_false_right]

theorem chainSum_compose {g0 : Graph} {m1 m2 : ℚ} {a b : Edge} (s t : Nat)
    (ha : chainSum g0 m1 m2 a) (hb : chainSum g0 m1 m2 b) :
    chainSum g0 m1 m2 ⟨s, t, a.len + b.len, EdgeKind.union a.ety b.ety⟩ := by
  obtain ⟨Sa, hne, hmem, hlen, hety⟩ := ha
  obtain ⟨Sb, hne2, hmem2, hlen2, hety2⟩ := hb
  refine ⟨Sa ++ Sb, by simp [hne], ?_, ?_, ?_⟩
  · intro e0 he0
    rcases List.mem_append.mp he0 with h2 | h2
    · exact hmem e0 h2
    · exact hmem2 e0 h2
  · simp only [List.map_append, List.sum_append]
    rw [hlen, hlen2]
  · simp only [List.map_append, unionAll_append]
    rw [hety, hety2]

/-- The edge set of a fold of `add_edge` calls. -/
theorem foldl_addEdge_edges (f : Edge → Edge) (l : List Edge) :
    ∀ g : Graph, (l.foldl (fun g2 e => addEdgeG g2 (f e)) g).edges = g.edges ++ l.map f := by
  induction l with
  | nil => intro g; simp
  | cons x xs ih =>
    intro g
    rw [List.foldl_cons, ih]
    simp [addEdgeG]

theorem chainSum_filter {g0 : Graph} {m1 m2 : ℚ} {el : List Edge} (q : Edge → Bool)
    (h : ∀ e ∈ el, chainSum g0 m1 m2 e) : ∀ e ∈ el.filter q, chainSum g0 m1 m2 e := by
  intro e he
  exact h e (List.mem_of_mem_filter he)

theorem simpPassA_chainSum (g0 : Graph) (m1 m2 : ℚ) (rto : List Nat) (g : Graph)
    (h : ∀ e ∈ g.edges, chainSum g0 m1 m2 e) :
    ∀ e ∈ (simpPassA rto g).edges, chainSum g0 m1 m2 e := by
  unfold simpPassA
  refine foldl_preserves (fun h2 => ∀ e ∈ h2.edges, chainSum g0 m1 m2 e) _ ?_ rto g h
  intro g2 v hg2
  split
  · exact chainSum_filter _ hg2
  · exact hg2

theorem simpPassB_chainSum (g0 : Graph) (m1 m2 : ℚ) (topo : List Nat) (g : Graph)
    (h : ∀ e ∈ g.edges, chainSum g0 m1 m2 e) :
    ∀ e ∈ (simpPassB topo g).edges, chainSum g0 m1 m2 e := by
  unfold simpPassB
  refine foldl_preserves (fun h2 => ∀ e ∈ h2.edges, chainSum g0 m1 m2 e) _ ?_ topo g h
  intro g2 v hg2
  split
  · exact hg2
  · dsimp only
    split
    · exact hg2
    · split
      · exact chainSum_filter _ hg2
      · exact hg2

theorem simpPassC_chainSum (g0 : Graph) (m1 m2 : ℚ) (topo : List Nat) (g : Graph)
    (h : ∀ e ∈ g.edges, chainSum g0 m1 m2 e) :
    ∀ e ∈ (simpPassC topo g).edges, chainSum g0 m1 m2 e := by
  unfold simpPassC
  refine foldl_preserves (fun h2 => ∀ e ∈ h2.edges, chainSum g0 m1 m2 e) _ ?_ topo g h
  intro g2 v hg2
  split
  · exact hg2
  · split
    · next oe heq =>
      dsimp only
      split
      · exact hg2
      · split
        · exact hg2
        · apply chainSum_filter
          intro e he
          rw [foldl_addEdge_edges
            (fun e => ⟨e.src, oe.tgt, oe.len + e.len, EdgeKind.union oe.ety e.ety⟩)
            (inEdgesG g2 v) g2] at he
          rcases List.mem_append.mp he with h2 | h2
          · exact hg2 e h2
          · obtain ⟨a, hamem, rfl⟩ := List.mem_map.mp h2
            have hoe : oe ∈ g2.edges := by
              have : oe ∈ outEdgesG g2 v := by rw [heq]; exact List.mem_cons_self _ _
              exact List.mem_of_mem_filter this
            have hain : a ∈ g2.edges := List.mem_of_mem_filter hamem
            exact chainSum_compose a.src oe.tgt (hg2 oe hoe) (hg2 a hain)
    · exact hg2

/-- Every edge of the scaled-then-simplified graph satisfies the per-branch
rate sum property with respect to the unscaled graph. -/
theorem simplify_scaled_chainSum (g : Graph) (m1 m2 : ℚ) :
    ∀ e ∈ (simplifyG (updateEdgeLengths g m1 m2)).edges, chainSum g m1 m2 e := by
  have hscaled : ∀ e ∈ (updateEdgeLengths g m1 m2).edges, chainSum g m1 m2 e := by
    intro e he
    unfold updateEdgeLengths at he
    obtain ⟨a, ha, rfl⟩ := List.mem_map.mp he
    exact chainSum_single m1 m2 ha
  unfold simplifyG
  apply simpPassC_chainSum
  apply simpPassB_chainSum
  apply simpPassA_chainSum
  exact hscaled

/-- The pruners never create or rescale edges: every surviving edge was
already present. -/
theorem pruneG_edges_subset (g : Graph) (model : InheritanceModel) (g2 : Graph)
    (h : pruneG g model = .ok g2) : ∀ e ∈ g2.edges, e ∈ g.edges := by
  have hsub : ∀ (gx : Graph), (∀ e ∈ gx.edges, e ∈ g.edges) →
      ∀ (l : List Nat) (step : Graph → Nat → Except MutkError Graph),
      (∀ gy v gz, step gy v = .ok gz → (∀ e ∈ gy.edges, e ∈ g.edges) →
        ∀ e ∈ gz.edges, e ∈ g.edges) →
      ∀ gz, l.foldlM step gx = .ok gz → ∀ e ∈ gz.edges, e ∈ g.edges := by
    intro gx hgx l step hstep gz hfold
    exact foldlM_preserves (fun h2 => ∀ e ∈ h2.edges, e ∈ g.edges) step hstep l gx gz hfold hgx
  have hrm : ∀ (p : Edge → Bool) e, e ∈ (removeEdgeIfG g p).edges → e ∈ g.edges := by
    intro p e he
    exact List.mem_of_mem_filter he
  cases model with
  | Autosomal =>
    cases h
    intro e he
    exact he
  | Maternal =>
    cases h
    intro e he
    exact hrm _ e he
  | Paternal =>
    cases h
    intro e he
    exact hrm _ e he
  | YLinked =>
    unfold pruneG pruneYlinked at h
    refine hsub _ (hrm _) _ _ ?_ g2 h
    intro gy v gz hstep hgy
    split at hstep
    · cases hstep; intro e he; exact hgy e (List.mem_of_mem_filter he)
    · cases hstep; intro e he; exact hgy e he
    · split at hstep
      · cases hstep
      · cases hstep; intro e he; exact hgy e he
  | WLinked =>
    unfold pruneG pruneWlinked at h
    refine hsub _ (hrm _) _ _ ?_ g2 h
    intro gy v gz hstep hgy
    split at hstep
    · cases hstep; intro e he; exact hgy e (List.mem_of_mem_filter he)
    · cases hstep; intro e he; exact hgy e he
    · split at hstep
      · cases hstep
      · cases hstep; intro e he; exact hgy e he
  | XLinked =>
    unfold pruneG pruneXlinked at h
    refine hsub _ (hrm _) _ _ ?_ g2 h
    intro gy v gz hstep hgy
    split at hstep
    · cases hstep; intro e he; exact hgy e he
    · cases hstep; intro e he; exact hgy e he
    · split at hstep
      · cases hstep
      · cases hstep; intro e he; exact hgy e he
  | ZLinked =>
    unfold pruneG pruneZlinked at h
    refine hsub _ (hrm _) _ _ ?_ g2 h
    intro gy v gz hstep hgy
    split at hstep
    · cases hstep; intro e he; exact hgy e he
    · cases hstep; intro e he; exact hgy e he
    · split at hstep
      · cases hstep
      · cases hstep; intro e he; exact hgy e he

/-- Finalization re-indexes endpoints but keeps the length and type of each edge. -/
theorem finalizeG_edge_origin (g : Graph) :
    ∀ e ∈ (finalizeG g).edges, ∃ a ∈ g.edges, e.len = a.len ∧ e.ety = a.ety := by
  intro e he
  rw [finalizeG_edges] at he
  obtain ⟨a, ha, hfa⟩ := List.mem_filterMap.mp he
  refine ⟨a, ha, ?_⟩
  revert hfa
  cases mapInToOut g a.src with
  | none => intro hfa; cases hfa
  | some x =>
    cases mapInToOut g a.tgt with
    | none => intro hfa; cases hfa
    | some y =>
      intro hfa
      have h2 := Option.some.inj hfa
      rw [← h2]
      exact ⟨rfl, rfl⟩

/-- C5 (amended): for every pre-scaling graph, rates and model, each edge of
the finalized graph of a successful run stands for a nonempty chain of
original edges, its length being the sum over the contracted chain of the
*own* rate of each branch (μ_germ for GERM_EDGE branches, μ_soma otherwise)
times the original length of that branch, and its type the bitwise union of
the types along the chain.  The single-μ product form of the claim — one rate chosen by the composed
type multiplying the total original length — holds only when the chain is
rate-homogeneous; the counterexample shows a mixed GERM|SOMA chain violating
it. -/
theorem C5_finalized_edge_is_chain_sum (g : Graph) (model : InheritanceModel)
    (m1 m2 : ℚ) (g2 : Graph)
    (hp : pruneG (simplifyG (updateEdgeLengths g m1 m2)) model = .ok g2) :
    ∀ e ∈ (finalizeG g2).edges, chainSum g m1 m2 e := by
  intro e he
  obtain ⟨a, ha, hlen, hety⟩ := finalizeG_edge_origin g2 e he
  have ha2 := pruneG_edges_subset _ model g2 hp a ha
  have hcs := simplify_scaled_chainSum g m1 m2 a ha2
  obtain ⟨S, h1, h2, h3, h4⟩ := hcs
  exact ⟨S, h1, h2, by rw [hlen, h3], by rw [hety, h4]⟩

/-- Witness for the amended C5 on the concrete chain pedigree graph with
μ_germ = 2 and μ_soma = 3: the composed GERM|SOMA edge into the sample is a
per-branch rate sum over original edges. -/
theorem C5_finalized_edge_is_chain_sum_witness :
    chainSum (gChainPre 1 1) 2 3 ⟨0, 1, 1 * 3 + 1 * 2, ⟨true, true, false⟩⟩ :=
  C5_finalized_edge_is_chain_sum (gChainPre 1 1) .Autosomal 2 3
    (simplifyG (updateEdgeLengths (gChainPre 1 1) 2 3)) rfl
    ⟨0, 1, 1 * 3 + 1 * 2, ⟨true, true, false⟩⟩ (.tail _ (.head _))

/-! ### No pipeline stage assigns the Founder vertex type -/

theorem noFounder_vpropAt {g : Graph} (hg : ∀ p ∈ g.verts, p.vtype ≠ VertexType.Founder)
    (v : Nat) : (vpropAt g v).vtype ≠ VertexType.Founder := by
  unfold vpropAt
  cases hget : g.verts.get? v with
  | none => exact fun hc => VertexType.noConfusion hc
  | some p => exact hg p (List.get?_mem hget)

theorem noFounder_set {g : Graph} {v : Nat} {p2 : VertexProp}
    (hg : ∀ p ∈ g.verts, p.vtype ≠ VertexType.Founder)
    (hp2 : p2.vtype ≠ VertexType.Founder) :
    ∀ p ∈ g.verts.set v p2, p.vtype ≠ VertexType.Founder := by
  intro p hp
  rcases List.mem_or_eq_of_mem_set hp with h2 | rfl
  · exact hg p h2
  · exact hp2

theorem noFounder_setPloidyG {g : Graph} {v : Nat} {k : Int}
    (hg : ∀ p ∈ g.verts, p.vtype ≠ VertexType.Founder) :
    ∀ p ∈ (setPloidyG g v k).verts, p.vtype ≠ VertexType.Founder :=
  noFounder_set hg (noFounder_vpropAt hg v)

theorem noFounder_setSexG {g : Graph} {v : Nat} {sx : Sex}
    (hg : ∀ p ∈ g.verts, p.vtype ≠ VertexType.Founder) :
    ∀ p ∈ (setSexG g v sx).verts, p.vtype ≠ VertexType.Founder :=
  noFounder_set hg (noFounder_vpropAt hg v)

theorem noFounder_setVtypeSample {g : Graph} {v : Nat}
    (hg : ∀ p ∈ g.verts, p.vtype ≠ VertexType.Founder) :
    ∀ p ∈ (setVtypeG g v VertexType.Sample).verts, p.vtype ≠ VertexType.Founder :=
  noFounder_set hg (fun hc => VertexType.noConfusion hc)

theorem noFounder_addVertexG {g : Graph} {p2 : VertexProp}
    (hg : ∀ p ∈ g.verts, p.vtype ≠ VertexType.Founder)
    (hp2 : p2.vtype ≠ VertexType.Founder) :
    ∀ p ∈ (addVertexG g p2).verts, p.vtype ≠ VertexType.Founder := by
  intro p hp
  rcases List.mem_append.mp hp with h2 | h2
  · exact hg p h2
  · rcases List.mem_singleton.mp h2 with rfl
    exact hp2

theorem addEdgesForMember_noFounder (ped : Pedigree) (g : Graph) (v : Nat) (g2 : Graph)
    (h : addEdgesForMember ped g v = .ok g2)
    (hg : ∀ p ∈ g.verts, p.vtype ≠ VertexType.Founder) :
    ∀ p ∈ g2.verts, p.vtype ≠ VertexType.Founder := by
  unfold addEdgesForMember at h
  dsimp only at h
  split at h
  · rw [← Except.ok.inj h]
    exact hg
  · split at h
    · -- clone
      split at h
      · exact Except.noConfusion h
      · split at h
        · exact Except.noConfusion h
        · rw [← Except.ok.inj h]
          exact noFounder_setSexG (noFounder_setPloidyG hg)
    · split at h
      · -- haploid
        split at h
        · exact Except.noConfusion h
        · split at h
          · -- dad branch
            split at h
            · exact Except.noConfusion h
            · split at h
              · exact Except.noConfusion h
              · split at h
                · exact Except.noConfusion h
                · rw [← Except.ok.inj h]
                  exact hg
          · -- mom branch
            split at h
            · exact Except.noConfusion h
            · split at h
              · exact Except.noConfusion h
              · split at h
                · exact Except.noConfusion h
                · rw [← Except.ok.inj h]
                  exact hg
      · -- diploid
        split at h
        · exact Except.noConfusion h
        · split at h
          · exact Except.noConfusion h
          · split at h
            · exact Except.noConfusion h
            · split at h
              · exact Except.noConfusion h
              · split at h
                · exact Except.noConfusion h
                · split at h
                  · exact Except.noConfusion h
                  · split at h
                    · exact Except.noConfusion h
                    · split at h
                      · exact Except.noConfusion h
                      · rw [← Except.ok.inj h]
                        exact hg

mutual
theorem attachTree_noFounder (g : Graph) (a : Nat) (t : STree)
    (hg : ∀ p ∈ g.verts, p.vtype ≠ VertexType.Founder) :
    ∀ p ∈ (attachTree g a t).verts, p.vtype ≠ VertexType.Founder := by
  match t with
  | .node lb ln sx pl cs =>
    unfold attachTree
    exact attachForest_noFounder _ _ cs
      (noFounder_addVertexG hg (fun hc => VertexType.noConfusion hc))

theorem attachForest_noFounder (g : Graph) (a : Nat) (ts : List STree)
    (hg : ∀ p ∈ g.verts, p.vtype ≠ VertexType.Founder) :
    ∀ p ∈ (attachForest g a ts).verts, p.vtype ≠ VertexType.Founder := by
  match ts with
  | [] => exact hg
  | t :: ts2 =>
    unfold attachForest
    exact attachForest_noFounder _ _ ts2 (attachTree_noFounder _ _ t hg)
end

theorem attachSamples_noFounder (i : Nat) (nm : String) (norm : Bool) :
    ∀ (l : List (Option STree)) (g g2 : Graph),
      attachSamplesForMember i nm norm g l = .ok g2 →
      (∀ p ∈ g.verts, p.vtype ≠ VertexType.Founder) →
      ∀ p ∈ g2.verts, p.vtype ≠ VertexType.Founder := by
  intro l
  induction l with
  | nil =>
    intro g g2 h hg
    rw [← Except.ok.inj h]
    exact hg
  | cons x xs ih =>
    intro g g2 h hg
    cases x with
    | none => exact Except.noConfusion h
    | some t =>
      exact ih _ g2 h (attachTree_noFounder _ _ _ hg)

theorem constructPedigreeGraph_noFounder (ped : Pedigree) (known : List String)
    (norm : Bool) (g : Graph) (h : constructPedigreeGraph ped known norm = .ok g) :
    ∀ p ∈ g.verts, p.vtype ≠ VertexType.Founder := by
  unfold constructPedigreeGraph at h
  obtain ⟨g1, h1, h⟩ := except_bind_ok h
  obtain ⟨g2, h2, h⟩ := except_bind_ok h
  rw [← Except.ok.inj h]
  have hg0 : ∀ p ∈ (⟨ped.members.map
      (fun m => ⟨m.name, m.sex, getPloidy m, VertexType.Germline⟩), []⟩ : Graph).verts,
      p.vtype ≠ VertexType.Founder := by
    intro p hp
    obtain ⟨m, _, rfl⟩ := List.mem_map.mp hp
    exact fun hc => VertexType.noConfusion hc
  have hg1 : ∀ p ∈ g1.verts, p.vtype ≠ VertexType.Founder :=
    foldlM_preserves _ _ (fun ga v gb hb hga => addEdgesForMember_noFounder ped ga v gb hb hga)
      _ _ _ h1 hg0
  have hg2 : ∀ p ∈ g2.verts, p.vtype ≠ VertexType.Founder :=
    foldlM_preserves _ _ (fun ga i gb hb hga =>
      attachSamples_noFounder i (getMemberD ped i).name norm (getMemberD ped i).samples ga gb hb hga)
      _ _ _ h2 hg1
  unfold markKnownSamples
  refine foldl_preserves (fun h2 => ∀ p ∈ h2.verts, p.vtype ≠ VertexType.Founder) _ ?_ _ g2 hg2
  intro ga v hga
  split
  · exact noFounder_setVtypeSample hga
  · exact hga

theorem simplifyG_verts_noFounder (g : Graph)
    (hg : ∀ p ∈ g.verts, p.vtype ≠ VertexType.Founder) :
    ∀ p ∈ (simplifyG g).verts, p.vtype ≠ VertexType.Founder := by
  unfold simplifyG simpPassA simpPassB simpPassC
  refine foldl_preserves (fun h2 => ∀ p ∈ h2.verts, p.vtype ≠ VertexType.Founder) _ ?_ _ _
    (foldl_preserves (fun h2 => ∀ p ∈ h2.verts, p.vtype ≠ VertexType.Founder) _ ?_ _ _
      (foldl_preserves (fun h2 => ∀ p ∈ h2.verts, p.vtype ≠ VertexType.Founder) _ ?_ _ _ hg))
  · intro ga v hga
    split
    · exact hga
    · dsimp only
      split
      · next oe heq =>
        split
        · exact hga
        · split
          · exact hga
          · intro p hp
            have hfold : ∀ (l : List Edge) (gx : Graph),
                (∀ p ∈ gx.verts, p.vtype ≠ VertexType.Founder) →
                ∀ p ∈ (l.foldl (fun g2 e => addEdgeG g2
                  ⟨e.src, oe.tgt, oe.len + e.len, EdgeKind.union oe.ety e.ety⟩) gx).verts,
                  p.vtype ≠ VertexType.Founder := by
              intro l
              induction l with
              | nil => intro gx hgx; exact hgx
              | cons y ys ihy => intro gx hgx; exact ihy _ hgx
            exact hfold (inEdgesG ga v) ga hga p hp
      · exact hga
  · intro ga v hga
    split
    · exact hga
    · dsimp only
      split
      · exact hga
      · split
        · exact hga
        · exact hga
  · intro ga v hga
    split
    · exact hga
    · exact hga

theorem pruneG_noFounder (g : Graph) (model : InheritanceModel) (g2 : Graph)
    (h : pruneG g model = .ok g2)
    (hg : ∀ p ∈ g.verts, p.vtype ≠ VertexType.Founder) :
    ∀ p ∈ g2.verts, p.vtype ≠ VertexType.Founder := by
  have hmap : ∀ p ∈ (g.edges.filter
      (fun e => ¬ (e.ety.germ && (sexAt g e.src == Sex.Male)))), True := fun _ _ => trivial
  have hstep : ∀ (step : Graph → Nat → Except MutkError Graph),
      (∀ ga v gb, step ga v = .ok gb →
        (∀ p ∈ ga.verts, p.vtype ≠ VertexType.Founder) →
        ∀ p ∈ gb.verts, p.vtype ≠ VertexType.Founder) →
      ∀ (gx gz : Graph) (l : List Nat), l.foldlM step gx = .ok gz →
      (∀ p ∈ gx.verts, p.vtype ≠ VertexType.Founder) →
      ∀ p ∈ gz.verts, p.vtype ≠ VertexType.Founder := by
    intro step hs gx gz l hf hgx
    exact foldlM_preserves _ step hs l gx gz hf hgx
  have hploidy1 : ∀ (gx : Graph), (∀ p ∈ gx.verts, p.vtype ≠ VertexType.Founder) →
      ∀ p ∈ (gx.verts.map (fun p => { p with ploidy := 1 })), p.vtype ≠ VertexType.Founder := by
    intro gx hgx p hp
    obtain ⟨q, hq, rfl⟩ := List.mem_map.mp hp
    exact hgx q hq
  cases model with
  | Autosomal =>
    rw [← Except.ok.inj h]
    exact hg
  | Maternal =>
    rw [← Except.ok.inj h]
    exact hploidy1 _ hg
  | Paternal =>
    rw [← Except.ok.inj h]
    exact hploidy1 _ hg
  | YLinked =>
    unfold pruneG pruneYlinked at h
    refine hstep _ ?_ _ _ _ h hg
    intro ga v gb hb hga
    split at hb
    · rw [← Except.ok.inj hb]
      exact noFounder_setPloidyG hga
    · rw [← Except.ok.inj hb]
      exact noFounder_setPloidyG hga
    · split at hb
      · exact Except.noConfusion hb
      · rw [← Except.ok.inj hb]
        exact hga
  | WLinked =>
    unfold pruneG pruneWlinked at h
    refine hstep _ ?_ _ _ _ h hg
    intro ga v gb hb hga
    split at hb
    · rw [← Except.ok.inj hb]
      exact noFounder_setPloidyG hga
    · rw [← Except.ok.inj hb]
      exact noFounder_setPloidyG hga
    · split at hb
      · exact Except.noConfusion hb
      · rw [← Except.ok.inj hb]
        exact hga
  | XLinked =>
    unfold pruneG pruneXlinked at h
    refine hstep _ ?_ _ _ _ h hg
    intro ga v gb hb hga
    split at hb
    · rw [← Except.ok.inj hb]
      exact hga
    · rw [← Except.ok.inj hb]
      exact noFounder_setPloidyG hga
    · split at hb
      · exact Except.noConfusion hb
      · rw [← Except.ok.inj hb]
        exact hga
  | ZLinked =>
    unfold pruneG pruneZlinked at h
    refine hstep _ ?_ _ _ _ h hg
    intro ga v gb hb hga
    split at hb
    · rw [← Except.ok.inj hb]
      exact hga
    · rw [← Except.ok.inj hb]
      exact noFounder_setPloidyG hga
    · split at hb
      · exact Except.noConfusion hb
      · rw [← Except.ok.inj hb]
        exact hga

theorem finalizeG_noFounder (g : Graph)
    (hg : ∀ p ∈ g.verts, p.vtype ≠ VertexType.Founder) :
    ∀ p ∈ (finalizeG g).verts, p.vtype ≠ VertexType.Founder := by
  intro p hp
  rw [finalizeG_verts] at hp
  obtain ⟨u, _, rfl⟩ := List.mem_map.mp hp
  rw [suffixLabel_vtype]
  exact noFounder_vpropAt hg u

/-- C10: (i) a successful `Construct` never assigns `VertexType::Founder` —
no vertex of the finalized graph carries it; (ii) every founder-band vertex
of the finalized graph (the leading positions filled by the founder filter)
keeps type `Germline`; (iii) the `founding:` section of `PrintGraph` selects
vertices by in-degree 0 alone: it is invariant under any remapping of the
vertex types. -/
theorem C10_no_founder_type :
    (∀ (ped : Pedigree) (known : List String) (model : InheritanceModel) (mu ms : ℚ)
      (norm : Bool) (g : Graph) (b : Bool),
      ConstructG ped known model mu ms norm = .ok (g, b) →
      ∀ p ∈ g.verts, p.vtype ≠ VertexType.Founder) ∧
    (∀ (g : Graph) (i : Nat), i < ((topoOrderG g).filter (founderPredG g)).length →
      ((finalizeG g).verts.get? i).map (fun p => p.vtype) = some VertexType.Germline) ∧
    (∀ (g : Graph) (f : VertexType → VertexType),
      foundingIdxG (mapVtypes g f) = foundingIdxG g) := by
  refine ⟨?_, ?_, ?_⟩
  · intro ped known model mu ms norm g b h
    unfold ConstructG at h
    obtain ⟨g1, h1, h⟩ := except_bind_ok h
    obtain ⟨g2, h2, h⟩ := except_bind_ok h
    have hpair := Except.ok.inj h
    have hgf : finalizeG g2 = g := congrArg Prod.fst hpair
    rw [← hgf]
    exact finalizeG_noFounder g2
      (pruneG_noFounder _ model g2 h2
        (simplifyG_verts_noFounder _
          (constructPedigreeGraph_noFounder ped known norm g1 h1)))
  · intro g i hi
    rw [finalizeG_verts]
    rw [List.get?_map]
    unfold vertexOrderG
    rw [List.get?_append (by simp only [List.length_append]; omega),
      List.get?_append (by simp only [List.length_append]; omega),
      List.get?_append hi]
    cases hget : ((topoOrderG g).filter (founderPredG g)).get? i with
    | none =>
      rw [List.get?_eq_none] at hget
      omega
    | some u =>
      have hu : u ∈ (topoOrderG g).filter (founderPredG g) := List.get?_mem hget
      have hpred : founderPredG g u = true := List.of_mem_filter hu
      unfold founderPredG at hpred
      have htype : vtypeAt g u = VertexType.Germline := by
        have h3 := (Bool.and_eq_true _ _).mp hpred
        simpa using h3.2
      show some (suffixLabel (vpropAt g u)).vtype = some VertexType.Germline
      rw [suffixLabel_vtype]
      exact congrArg some htype
  · intro g f
    unfold foundingIdxG
    have hn : (mapVtypes g f).numVertices = g.numVertices := by
      simp [mapVtypes, Graph.numVertices]
    rw [hn]
    rfl

/-- Witness for C10 at the concrete chain pedigree, the chain graph and a
type remapping. -/
theorem C10_no_founder_type_witness :
    (∀ p ∈ gC5final.verts, p.vtype ≠ VertexType.Founder) ∧
    ((finalizeG gPath).verts.get? 0).map (fun p => p.vtype) = some VertexType.Germline ∧
    foundingIdxG (mapVtypes gPath (fun _ => VertexType.Sample)) = foundingIdxG gPath := by
  refine ⟨C10_no_founder_type.1 pedC5 ["s", "w"] .Autosomal 2 3 false gC5final true (by rfl),
    C10_no_founder_type.2.1 gPath 0 (by decide),
    C10_no_founder_type.2.2 gPath (fun _ => VertexType.Sample)⟩

end Mutk
